import Mathlib

/-!
Verification of the AMQP 1.0 value codec and message model of this repository.

The Go binding (`marshal.go`) maps host (Go) values to and from a `pn_data_t`
tree of AMQP values; the C++ binding (`annotation_key.hpp` / `message.cpp`)
provides the restricted `annotation_key` scalar and the message object with its
lazily cached map sections.  The underlying `pn_data` byte codec
(`pn_data_encode` / `pn_data_decode`) and `pn_message_encode` are C code that is
not part of the sources here; those parts are modelled from the spec
(marked `Modelled from the spec:` below) and everything else is translated
directly from the source files.

Byte sequences are modelled as `List Nat` (each entry a byte value), machine
integers as `Nat`/`Int` with explicit two's-complement conversion where the
wire format requires it.
-/

namespace AMQP

/-- Big-endian byte list of `n`, exactly `k` bytes, most significant first
(the value is taken modulo `256 ^ k`). -/
def beBytes : Nat → Nat → List Nat
  | 0, _ => []
  | k + 1, n => beBytes k (n / 256) ++ [n % 256]

/-- Value of a big-endian byte list. -/
def beVal (bs : List Nat) : Nat := bs.foldl (fun a b => a * 256 + b) 0

theorem beBytes_length (k n : Nat) : (beBytes k n).length = k := by
  induction k generalizing n with
  | zero => rfl
  | succ k ih => simp [beBytes, ih]

theorem beVal_append (l : List Nat) (b : Nat) :
    beVal (l ++ [b]) = beVal l * 256 + b := by
  simp [beVal, List.foldl_append]

theorem beVal_beBytes (k n : Nat) (h : n < 256 ^ k) :
    beVal (beBytes k n) = n := by
  induction k generalizing n with
  | zero => simp [beBytes, beVal]; omega
  | succ k ih =>
    rw [beBytes, beVal_append, ih]
    · omega
    · exact Nat.div_lt_of_lt_mul (by rwa [Nat.pow_succ, Nat.mul_comm] at h)

/-- Two's-complement representation of the integer `i` in `w` bytes. -/
def tcNat (w : Nat) (i : Int) : Nat := (i % ((256 ^ w : Nat) : Int)).toNat

/-- Signed value of the `w`-byte two's-complement representation `n`. -/
def tcInt (w : Nat) (n : Nat) : Int :=
  if n < 256 ^ w / 2 then (n : Int) else (n : Int) - ((256 ^ w : Nat) : Int)

theorem tcNat_lt (w : Nat) (i : Int) : tcNat w i < 256 ^ w := by
  have hp : (0 : Int) < ((256 ^ w : Nat) : Int) := by positivity
  have h1 := Int.emod_lt_of_pos i (by omega : (0 : Int) < ((256 ^ w : Nat) : Int))
  have h2 := Int.emod_nonneg i (by omega : ((256 ^ w : Nat) : Int) ≠ 0)
  simp only [tcNat]
  omega

theorem tcInt_tcNat (w : Nat) (i : Int) (hw : w = 1 ∨ w = 2 ∨ w = 4 ∨ w = 8)
    (h1 : -((256 ^ w / 2 : Nat) : Int) ≤ i) (h2 : i < ((256 ^ w / 2 : Nat) : Int)) :
    tcInt w (tcNat w i) = i := by
  simp only [tcInt, tcNat]
  rcases hw with rfl | rfl | rfl | rfl <;> (norm_num at *; omega)

/-- The closed enumeration of AMQP type tags (`pn_type_t`). -/
inductive ATag where
  | null | bool | ubyte | byte | ushort | short | uint | int | char
  | ulong | long | timestamp | float | double | uuid
  | binary | string | symbol | described | array | list | map | invalid
deriving DecidableEq

/-- An in-memory AMQP value (one node of the `pn_data_t` tree).  Floats are
modelled by their IEEE-754 bit patterns; signed integers as `Int`; byte
sequences as `List Nat`.  A MAP holds its `2 * N` children in wire order
alternating key, value, matching the `pn_data` representation. -/
inductive AVal where
  | anull
  | abool (b : Bool)
  | aubyte (n : Nat)
  | abyte (i : Int)
  | aushort (n : Nat)
  | ashort (i : Int)
  | auint (n : Nat)
  | aint (i : Int)
  | achar (n : Nat)
  | aulong (n : Nat)
  | along (i : Int)
  | atimestamp (ms : Int)
  | afloat (bits : Nat)
  | adouble (bits : Nat)
  | auuid (bs : List Nat)
  | abinary (bs : List Nat)
  | astring (bs : List Nat)
  | asymbol (bs : List Nat)
  | alist (xs : List AVal)
  | amap (kvs : List AVal)
  | aarray (et : ATag) (xs : List AVal)
  | adescribed (d v : AVal)

/-- The AMQP type tag of a value (`pn_data_type`). -/
def tagOf : AVal → ATag
  | .anull => .null
  | .abool _ => .bool
  | .aubyte _ => .ubyte
  | .abyte _ => .byte
  | .aushort _ => .ushort
  | .ashort _ => .short
  | .auint _ => .uint
  | .aint _ => .int
  | .achar _ => .char
  | .aulong _ => .ulong
  | .along _ => .long
  | .atimestamp _ => .timestamp
  | .afloat _ => .float
  | .adouble _ => .double
  | .auuid _ => .uuid
  | .abinary _ => .binary
  | .astring _ => .string
  | .asymbol _ => .symbol
  | .alist _ => .list
  | .amap _ => .map
  | .aarray _ _ => .array
  | .adescribed _ _ => .described

/-- Whether a value is a described value (`pn_data_is_described`). -/
def isDescribedB : AVal → Bool
  | .adescribed _ _ => true
  | _ => false

/-- Modelled from the spec: the full-width wire constructor byte emitted once
for the elements of an ARRAY (§4.2/§4.3: the element constructor is written a
single time, so the fixed-width form valid for every element is used).
DESCRIBED and INVALID element tags have no supported array constructor; they
are excluded by well-formedness. -/
def elemCtorB : ATag → Nat
  | .null => 0x40
  | .bool => 0x56
  | .ubyte => 0x50
  | .byte => 0x51
  | .ushort => 0x60
  | .short => 0x61
  | .uint => 0x70
  | .int => 0x71
  | .char => 0x73
  | .ulong => 0x80
  | .long => 0x81
  | .timestamp => 0x83
  | .float => 0x72
  | .double => 0x82
  | .uuid => 0x98
  | .binary => 0xb0
  | .string => 0xb1
  | .symbol => 0xb3
  | .list => 0xd0
  | .map => 0xd1
  | .array => 0xf0
  | .described => 0x00
  | .invalid => 0x00

/-- The element constructor as emitted on the wire (a single byte). -/
def elemCtor (et : ATag) : List Nat := [elemCtorB et]

mutual
/-- Modelled from the spec: `pn_data_encode`, the binary AMQP 1.0 encoder
(§4.1/§4.3/§6.1).  It emits the most compact valid encoding: true/false
constructors for booleans, `uint0`/`smalluint`, `ulong0`/`smallulong`,
`smallint`/`smalllong`, `vbin8`/`str8`/`sym8` versus the 32-bit forms,
`list0`/`list8`/`list32`, `map8`/`map32` and `array8`/`array32`. -/
def encodeA : AVal → List Nat
  | .anull => [0x40]
  | .abool true => [0x41]
  | .abool false => [0x42]
  | .aubyte n => [0x50, n]
  | .abyte i => [0x51, tcNat 1 i]
  | .aushort n => 0x60 :: beBytes 2 n
  | .ashort i => 0x61 :: beBytes 2 (tcNat 2 i)
  | .auint n => if n = 0 then [0x43] else if n ≤ 255 then [0x52, n] else 0x70 :: beBytes 4 n
  | .aint i => if -128 ≤ i ∧ i < 128 then [0x54, tcNat 1 i] else 0x71 :: beBytes 4 (tcNat 4 i)
  | .achar n => 0x73 :: beBytes 4 n
  | .aulong n => if n = 0 then [0x44] else if n ≤ 255 then [0x53, n] else 0x80 :: beBytes 8 n
  | .along i => if -128 ≤ i ∧ i < 128 then [0x55, tcNat 1 i] else 0x81 :: beBytes 8 (tcNat 8 i)
  | .atimestamp ms => 0x83 :: beBytes 8 (tcNat 8 ms)
  | .afloat bits => 0x72 :: beBytes 4 bits
  | .adouble bits => 0x82 :: beBytes 8 bits
  | .auuid bs => 0x98 :: bs
  | .abinary bs =>
      if bs.length ≤ 255 then 0xa0 :: bs.length :: bs
      else 0xb0 :: (beBytes 4 bs.length ++ bs)
  | .astring bs =>
      if bs.length ≤ 255 then 0xa1 :: bs.length :: bs
      else 0xb1 :: (beBytes 4 bs.length ++ bs)
  | .asymbol bs =>
      if bs.length ≤ 255 then 0xa3 :: bs.length :: bs
      else 0xb3 :: (beBytes 4 bs.length ++ bs)
  | .alist [] => [0x45]
  | .alist (x :: xs) =>
      let p := encList (x :: xs)
      if p.length + 1 ≤ 255 ∧ xs.length + 1 ≤ 255 then
        0xc0 :: (p.length + 1) :: (xs.length + 1) :: p
      else
        0xd0 :: (beBytes 4 (p.length + 4) ++ (beBytes 4 (xs.length + 1) ++ p))
  | .amap kvs =>
      let p := encList kvs
      if p.length + 1 ≤ 255 ∧ kvs.length ≤ 255 then
        0xc1 :: (p.length + 1) :: kvs.length :: p
      else
        0xd1 :: (beBytes 4 (p.length + 4) ++ (beBytes 4 kvs.length ++ p))
  | .aarray et xs =>
      let p := encElems xs
      let ct := elemCtor et
      if p.length + ct.length + 1 ≤ 255 ∧ xs.length ≤ 255 then
        0xe0 :: (p.length + ct.length + 1) :: xs.length :: (ct ++ p)
      else
        0xf0 :: (beBytes 4 (p.length + ct.length + 4) ++ (beBytes 4 xs.length ++ (ct ++ p)))
  | .adescribed d v => 0x00 :: (encodeA d ++ encodeA v)

/-- Concatenated encodings of a sequence of values (children of a LIST or the
alternating key/value children of a MAP). -/
def encList : List AVal → List Nat
  | [] => []
  | x :: xs => encodeA x ++ encList xs

/-- The full-width payload of one ARRAY element (no per-element constructor,
§4.3): the fixed-width two's-complement / big-endian body, or the 32-bit
size-prefixed body for variable-width and compound element types. -/
def encElem : AVal → List Nat
  | .anull => []
  | .abool b => [if b then 1 else 0]
  | .aubyte n => [n]
  | .abyte i => [tcNat 1 i]
  | .aushort n => beBytes 2 n
  | .ashort i => beBytes 2 (tcNat 2 i)
  | .auint n => beBytes 4 n
  | .aint i => beBytes 4 (tcNat 4 i)
  | .achar n => beBytes 4 n
  | .aulong n => beBytes 8 n
  | .along i => beBytes 8 (tcNat 8 i)
  | .atimestamp ms => beBytes 8 (tcNat 8 ms)
  | .afloat bits => beBytes 4 bits
  | .adouble bits => beBytes 8 bits
  | .auuid bs => bs
  | .abinary bs => beBytes 4 bs.length ++ bs
  | .astring bs => beBytes 4 bs.length ++ bs
  | .asymbol bs => beBytes 4 bs.length ++ bs
  | .alist xs =>
      let p := encList xs
      beBytes 4 (p.length + 4) ++ (beBytes 4 xs.length ++ p)
  | .amap kvs =>
      let p := encList kvs
      beBytes 4 (p.length + 4) ++ (beBytes 4 kvs.length ++ p)
  | .aarray et xs =>
      let p := encElems xs
      let ct := elemCtor et
      beBytes 4 (p.length + ct.length + 4) ++ (beBytes 4 xs.length ++ (ct ++ p))
  | .adescribed _ _ => []

/-- Concatenated element payloads of an ARRAY. -/
def encElems : List AVal → List Nat
  | [] => []
  | x :: xs => encElem x ++ encElems xs
end


/-- Whether `b` is a UTF-8 continuation byte. -/
def utf8Cont (b : Nat) : Bool := 0x80 ≤ b && b ≤ 0xBF

/-- Modelled from the spec: UTF-8 validity of a STRING payload (§3.2 requires
STRING payloads to be valid UTF-8 and §7 treats a violation as malformed
input).  Overlong forms, surrogates and code points beyond U+10FFFF are
rejected, following the UTF-8 byte grammar. -/
def utf8Valid : List Nat → Bool
  | [] => true
  | b :: r =>
    if b ≤ 0x7F then utf8Valid r
    else
      match r with
      | [] => false
      | b1 :: r1 =>
        if 0xC2 ≤ b && b ≤ 0xDF then utf8Cont b1 && utf8Valid r1
        else
          match r1 with
          | [] => false
          | b2 :: r2 =>
            if b = 0xE0 then (0xA0 ≤ b1 && b1 ≤ 0xBF) && utf8Cont b2 && utf8Valid r2
            else if b = 0xED then (0x80 ≤ b1 && b1 ≤ 0x9F) && utf8Cont b2 && utf8Valid r2
            else if 0xE1 ≤ b && b ≤ 0xEF then utf8Cont b1 && utf8Cont b2 && utf8Valid r2
            else
              match r2 with
              | [] => false
              | b3 :: r3 =>
                if b = 0xF0 then (0x90 ≤ b1 && b1 ≤ 0xBF) && utf8Cont b2 && utf8Cont b3 && utf8Valid r3
                else if b = 0xF4 then (0x80 ≤ b1 && b1 ≤ 0x8F) && utf8Cont b2 && utf8Cont b3 && utf8Valid r3
                else if 0xF1 ≤ b && b ≤ 0xF3 then utf8Cont b1 && utf8Cont b2 && utf8Cont b3 && utf8Valid r3
                else false

mutual
/-- Well-formedness of a value tree: the invariants of §3.2 (numeric payloads
within their machine widths, UUID of exactly 16 bytes, SYMBOL 7-bit ASCII,
STRING valid UTF-8), a MAP with an even child count, ARRAY elements all
carrying the declared element tag with a supported (non-DESCRIBED) element
constructor, and compound sizes and counts that fit the 32-bit wire size
fields. -/
def wfa : AVal → Bool
  | .anull => true
  | .abool _ => true
  | .aubyte n => decide (n < 256)
  | .abyte i => decide (-128 ≤ i) && decide (i < 128)
  | .aushort n => decide (n < 65536)
  | .ashort i => decide (-32768 ≤ i) && decide (i < 32768)
  | .auint n => decide (n < 2 ^ 32)
  | .aint i => decide (-(2 ^ 31 : Int) ≤ i) && decide (i < 2 ^ 31)
  | .achar n => decide (n < 2 ^ 32)
  | .aulong n => decide (n < 2 ^ 64)
  | .along i => decide (-(2 ^ 63 : Int) ≤ i) && decide (i < 2 ^ 63)
  | .atimestamp ms => decide (-(2 ^ 63 : Int) ≤ ms) && decide (ms < 2 ^ 63)
  | .afloat b => decide (b < 2 ^ 32)
  | .adouble b => decide (b < 2 ^ 64)
  | .auuid bs => decide (bs.length = 16) && bs.all (fun b => b < 256)
  | .abinary bs => decide (bs.length < 2 ^ 32) && bs.all (fun b => b < 256)
  | .astring bs => decide (bs.length < 2 ^ 32) && utf8Valid bs
  | .asymbol bs => decide (bs.length < 2 ^ 32) && bs.all (fun b => b < 128)
  | .alist xs =>
      wfaList xs && decide ((encList xs).length + 4 < 2 ^ 32) && decide (xs.length < 2 ^ 32)
  | .amap kvs =>
      wfaList kvs && decide (kvs.length % 2 = 0) &&
      decide ((encList kvs).length + 4 < 2 ^ 32) && decide (kvs.length < 2 ^ 32)
  | .aarray et xs =>
      wfaList xs && xs.all (fun x => tagOf x == et) &&
      decide (et ≠ .described) && decide (et ≠ .invalid) &&
      decide ((encElems xs).length + (elemCtor et).length + 4 < 2 ^ 32) &&
      decide (xs.length < 2 ^ 32)
  | .adescribed d v => wfa d && wfa v

/-- Well-formedness of every value of a list. -/
def wfaList : List AVal → Bool
  | [] => true
  | x :: xs => wfa x && wfaList xs
end

/-- Parse-error taxonomy of the decoder (§7): malformed wire grammar, or one
of the unsupported decimal constructors. -/
inductive PErr where
  | malformed
  | unsupported
deriving DecidableEq

/-- Decoder result: a value with the number of bytes consumed, an
incomplete-input marker (UNDERFLOW), or a parse error. -/
inductive DRes (α : Type) where
  | ok (v : α) (n : Nat)
  | uflow
  | fail (e : PErr)

/-- Adds `k` to the consumed－byte count of a successful result. -/
def DRes.shift {α : Type} (k : Nat) : DRes α → DRes α
  | .ok v n => .ok v (n + k)
  | .uflow => .uflow
  | .fail e => .fail e

/-- Reads the `szW`-byte big-endian size field at the head of `bs` followed by
that many payload bytes.  Returns the payload, the remaining bytes, and the
total bytes read; `none` means the input ended first (underflow). -/
def segment (szW : Nat) (bs : List Nat) : Option (List Nat × List Nat × Nat) :=
  if szW ≤ bs.length then
    let s := beVal (bs.take szW)
    let r := bs.drop szW
    if s ≤ r.length then some (r.take s, r.drop s, szW + s) else none
  else none

/-- Reads a `w`-byte big-endian fixed-width payload and applies `mk`. -/
def rdFix (w : Nat) (bs : List Nat) (mk : Nat → AVal) : DRes AVal :=
  if w ≤ bs.length then .ok (mk (beVal (bs.take w))) w else .uflow

/-- Lifts an `Except` parse outcome into a decoder result consuming `n`. -/
def liftE (r : Except PErr AVal) (n : Nat) : DRes AVal :=
  match r with
  | .ok v => .ok v n
  | .error e => .fail e

/-- Reads a size-prefixed payload region and hands it to the (possibly
failing) region parser `k`; consumed bytes are the size field plus the region. -/
def rdSeg (szW : Nat) (bs : List Nat) (k : List Nat → Except PErr AVal) : DRes AVal :=
  match segment szW bs with
  | some (p, _, n) => liftE (k p) n
  | none => .uflow

/-- Runs the child decoder `dec` `c` times over consecutive slices of `bs`,
collecting the values and the total consumed byte count. -/
def decMany (dec : List Nat → DRes AVal) : Nat → List Nat → DRes (List AVal)
  | 0, _ => .ok [] 0
  | c + 1, bs =>
    match dec bs with
    | .ok v n =>
      match decMany dec c (bs.drop n) with
      | .ok vs m => .ok (v :: vs) (n + m)
      | .uflow => .uflow
      | .fail e => .fail e
    | .uflow => .uflow
    | .fail e => .fail e

/-- Parses the sized region `p` of a LIST or MAP node: the `szW`-byte count
followed by the children, which must fill the region exactly.  Inside a sized
region a truncated child is a size-field lie, hence malformed rather than
underflow. -/
def parseCompound (szW : Nat) (p : List Nat) (dec : List Nat → DRes AVal)
    (mk : Nat → List AVal → Except PErr AVal) : Except PErr AVal :=
  if szW ≤ p.length then
    let c := beVal (p.take szW)
    let body := p.drop szW
    match decMany dec c body with
    | .ok vs m => if m = body.length then mk c vs else .error .malformed
    | .uflow => .error .malformed
    | .fail e => .error e
  else .error .malformed

/-- The AMQP type tag denoted by a wire constructor byte. -/
def tagOfCtor : Nat → ATag
  | 0x40 => .null
  | 0x41 => .bool
  | 0x42 => .bool
  | 0x56 => .bool
  | 0x50 => .ubyte
  | 0x51 => .byte
  | 0x60 => .ushort
  | 0x61 => .short
  | 0x43 => .uint
  | 0x52 => .uint
  | 0x70 => .uint
  | 0x54 => .int
  | 0x71 => .int
  | 0x73 => .char
  | 0x44 => .ulong
  | 0x53 => .ulong
  | 0x80 => .ulong
  | 0x55 => .long
  | 0x81 => .long
  | 0x83 => .timestamp
  | 0x72 => .float
  | 0x82 => .double
  | 0x98 => .uuid
  | 0xa0 => .binary
  | 0xb0 => .binary
  | 0xa1 => .string
  | 0xb1 => .string
  | 0xa3 => .symbol
  | 0xb3 => .symbol
  | 0x45 => .list
  | 0xc0 => .list
  | 0xd0 => .list
  | 0xc1 => .map
  | 0xd1 => .map
  | 0xe0 => .array
  | 0xf0 => .array
  | _ => .invalid

/-- Parses the sized region `p` of an ARRAY node: the `szW`-byte count, the
single element constructor byte (a DESCRIBED element constructor is treated as
a wire-grammar error, per the open question of §9), then the element payloads
filling the region exactly. -/
def parseArr (szW : Nat) (p : List Nat) (delem : Nat → List Nat → DRes AVal) :
    Except PErr AVal :=
  if szW ≤ p.length then
    let c := beVal (p.take szW)
    match p.drop szW with
    | [] => .error .malformed
    | ct :: body =>
      if ct = 0x00 then .error .malformed
      else
        match decMany (delem ct) c body with
        | .ok vs m => if m = body.length then .ok (.aarray (tagOfCtor ct) vs) else .error .malformed
        | .uflow => .error .malformed
        | .fail e => .error e
  else .error .malformed

/-- Modelled from the spec: the payload decoder for one wire constructor.
`dec` decodes full child values (of LIST and MAP regions); the fuel `g` bounds
the nesting depth of ARRAY element constructors.  Both the compact and the
full-width forms of every constructor are accepted (§4.1), the decimal
constructors report the unsupported-type error (§7), and a size field pointing
beyond the region is malformed. -/
def decElemF : Nat → (List Nat → DRes AVal) → Nat → List Nat → DRes AVal
  | 0, _, _, _ => .fail .malformed
  | g + 1, dec, ct, bs =>
    match ct with
    | 0x40 => .ok .anull 0
    | 0x41 => .ok (.abool true) 0
    | 0x42 => .ok (.abool false) 0
    | 0x43 => .ok (.auint 0) 0
    | 0x44 => .ok (.aulong 0) 0
    | 0x45 => .ok (.alist []) 0
    | 0x50 => rdFix 1 bs (fun n => .aubyte n)
    | 0x51 => rdFix 1 bs (fun n => .abyte (tcInt 1 n))
    | 0x52 => rdFix 1 bs (fun n => .auint n)
    | 0x53 => rdFix 1 bs (fun n => .aulong n)
    | 0x54 => rdFix 1 bs (fun n => .aint (tcInt 1 n))
    | 0x55 => rdFix 1 bs (fun n => .along (tcInt 1 n))
    | 0x56 =>
      match bs with
      | [] => .uflow
      | 0 :: _ => .ok (.abool false) 1
      | 1 :: _ => .ok (.abool true) 1
      | _ :: _ => .fail .malformed
    | 0x60 => rdFix 2 bs (fun n => .aushort n)
    | 0x61 => rdFix 2 bs (fun n => .ashort (tcInt 2 n))
    | 0x70 => rdFix 4 bs (fun n => .auint n)
    | 0x71 => rdFix 4 bs (fun n => .aint (tcInt 4 n))
    | 0x72 => rdFix 4 bs (fun n => .afloat n)
    | 0x73 => rdFix 4 bs (fun n => .achar n)
    | 0x74 => .fail .unsupported
    | 0x80 => rdFix 8 bs (fun n => .aulong n)
    | 0x81 => rdFix 8 bs (fun n => .along (tcInt 8 n))
    | 0x82 => rdFix 8 bs (fun n => .adouble n)
    | 0x83 => rdFix 8 bs (fun n => .atimestamp (tcInt 8 n))
    | 0x84 => .fail .unsupported
    | 0x94 => .fail .unsupported
    | 0x98 => if 16 ≤ bs.length then .ok (.auuid (bs.take 16)) 16 else .uflow
    | 0xa0 => rdSeg 1 bs (fun p => .ok (.abinary p))
    | 0xa1 => rdSeg 1 bs (fun p => if utf8Valid p then .ok (.astring p) else .error .malformed)
    | 0xa3 => rdSeg 1 bs (fun p => if p.all (fun b => b < 128) then .ok (.asymbol p) else .error .malformed)
    | 0xb0 => rdSeg 4 bs (fun p => .ok (.abinary p))
    | 0xb1 => rdSeg 4 bs (fun p => if utf8Valid p then .ok (.astring p) else .error .malformed)
    | 0xb3 => rdSeg 4 bs (fun p => if p.all (fun b => b < 128) then .ok (.asymbol p) else .error .malformed)
    | 0xc0 => rdSeg 1 bs (fun p => parseCompound 1 p dec (fun _ vs => .ok (.alist vs)))
    | 0xd0 => rdSeg 4 bs (fun p => parseCompound 4 p dec (fun _ vs => .ok (.alist vs)))
    | 0xc1 => rdSeg 1 bs (fun p => parseCompound 1 p dec
        (fun c vs => if c % 2 = 0 then .ok (.amap vs) else .error .malformed))
    | 0xd1 => rdSeg 4 bs (fun p => parseCompound 4 p dec
        (fun c vs => if c % 2 = 0 then .ok (.amap vs) else .error .malformed))
    | 0xe0 => rdSeg 1 bs (fun p => parseArr 1 p (decElemF g dec))
    | 0xf0 => rdSeg 4 bs (fun p => parseArr 4 p (decElemF g dec))
    | _ => .fail .malformed

/-- Modelled from the spec: `pn_data_decode` — reads one complete top-level
AMQP value from the head of `bs` (§4.3).  A DESCRIBED value is the `0x00`
constructor followed by the descriptor and the body, both full values; every
other constructor defers to the shared payload decoder.  Incomplete input
yields the UNDERFLOW marker.  The fuel `f` decreases on descending into
children, whose input is always strictly shorter, so any `f` greater than the
input length is sufficient. -/
def decV : Nat → List Nat → DRes AVal
  | 0, _ => .uflow
  | f + 1, bs =>
    match bs with
    | [] => .uflow
    | ct :: r =>
      if ct = 0x00 then
        match decV f r with
        | .ok d nd =>
          match decV f (r.drop nd) with
          | .ok v nv => .ok (.adescribed d v) (1 + nd + nv)
          | .uflow => .uflow
          | .fail e => .fail e
        | .uflow => .uflow
        | .fail e => .fail e
      else DRes.shift 1 (decElemF (r.length + 1) (decV f) ct r)

/-- One-value decode of a byte sequence (`pn_data_decode` at sufficient fuel). -/
def pnDecode (bs : List Nat) : DRes AVal := decV (bs.length + 1) bs

/-- Result of the Go `decode` wrapper (marshal.go): a decoded value with its
byte count, the incomplete marker (0 bytes consumed, nil error), or an error. -/
inductive GoDec where
  | ok (t : AVal) (n : Nat)
  | incomplete
  | errParse (e : PErr)

/-- The Go `decode` helper (marshal.go `decode`): empty input and UNDERFLOW
both report 0 bytes consumed with no error; other non-positive outcomes of
`pn_data_decode` surface as errors. -/
def goDecode (bs : List Nat) : GoDec :=
  if bs.length = 0 then .incomplete
  else
    match pnDecode bs with
    | .ok t n => .ok t n
    | .uflow => .incomplete
    | .fail e => .errParse e


theorem encList_cons (x : AVal) (xs : List AVal) :
    encList (x :: xs) = encodeA x ++ encList xs := rfl

theorem encElems_cons (x : AVal) (xs : List AVal) :
    encElems (x :: xs) = encElem x ++ encElems xs := rfl

theorem beVal_singleton (n : Nat) : beVal [n] = n := by simp [beVal]

theorem segment_of_encoded (szW : Nat) (p extra : List Nat)
    (h : p.length < 256 ^ szW) :
    segment szW (beBytes szW p.length ++ (p ++ extra)) = some (p, extra, szW + p.length) := by
  have hlen : (beBytes szW p.length).length = szW := beBytes_length _ _
  have hL : (beBytes szW p.length ++ (p ++ extra)).length = szW + p.length + extra.length := by
    simp [hlen]
    omega
  have t1 : (beBytes szW p.length ++ (p ++ extra)).take szW = beBytes szW p.length := by
    rw [List.take_append_of_le_length (by omega), List.take_of_length_le (by omega)]
  have t2 : (beBytes szW p.length ++ (p ++ extra)).drop szW = p ++ extra := by
    rw [List.drop_append_of_le_length (by omega), List.drop_eq_nil_of_le (by omega),
      List.nil_append]
  simp only [segment, t1, t2, beVal_beBytes _ _ h]
  rw [if_pos (by rw [hL]; omega), if_pos (by simp)]
  simp

theorem segment_one_of_encoded (s : Nat) (p extra : List Nat) (h : p.length = s)
    (hs : s ≤ 255) :
    segment 1 (s :: (p ++ extra)) = some (p, extra, 1 + s) := by
  have hb : beBytes 1 p.length = [p.length] := by
    simp [beBytes]
    omega
  have h1 : s :: (p ++ extra) = beBytes 1 p.length ++ (p ++ extra) := by
    rw [hb, h]
    rfl
  rw [h1, ← h]
  exact segment_of_encoded 1 p extra (by omega)

theorem segment_trunc (szW : Nat) (sz p : List Nat) (k : Nat)
    (hsz : sz.length = szW) (hval : beVal sz = p.length)
    (hk : k < szW + p.length) :
    segment szW ((sz ++ p).take k) = none := by
  simp only [segment]
  by_cases hks : k < szW
  · rw [if_neg]
    simp only [List.length_take, List.length_append]
    omega
  · have h0 : (sz ++ p).take (sz.length + (k - szW)) = sz ++ p.take (k - szW) :=
      List.take_append _
    have h1 : (sz ++ p).take k = sz ++ p.take (k - szW) := by
      conv_lhs => rw [show k = sz.length + (k - szW) from by omega]
      exact h0
    rw [h1]
    have t1 : (sz ++ p.take (k - szW)).take szW = sz := by
      rw [List.take_append_of_le_length (by omega), List.take_of_length_le (by omega)]
    have t2 : (sz ++ p.take (k - szW)).drop szW = p.take (k - szW) := by
      rw [List.drop_append_of_le_length (by omega), List.drop_eq_nil_of_le (by omega),
        List.nil_append]
    rw [if_pos (by simp only [List.length_append, List.length_take]; omega)]
    rw [t1, t2, hval, if_neg]
    simp only [List.length_take]
    omega

theorem rdFix_of_encoded (w n : Nat) (extra : List Nat) (mk : Nat → AVal)
    (h : n < 256 ^ w) :
    rdFix w (beBytes w n ++ extra) mk = .ok (mk n) w := by
  have hlen : (beBytes w n).length = w := beBytes_length _ _
  have t1 : (beBytes w n ++ extra).take w = beBytes w n := by
    rw [List.take_append_of_le_length (by omega), List.take_of_length_le (by omega)]
  simp only [rdFix]
  rw [if_pos (by simp [hlen]), t1, beVal_beBytes _ _ h]

theorem rdFix_trunc (w : Nat) (bs : List Nat) (mk : Nat → AVal)
    (h : bs.length < w) : rdFix w bs mk = .uflow := by
  simp only [rdFix]
  rw [if_neg (by omega)]


theorem wfaList_mem {xs : List AVal} (h : wfaList xs = true) {w : AVal} (hw : w ∈ xs) :
    wfa w = true := by
  induction xs with
  | nil => cases hw
  | cons x xs ih =>
    rw [wfaList, Bool.and_eq_true] at h
    rcases hw with _ | _
    · exact h.1
    · exact ih h.2 (by assumption)

theorem elemCtorB_ne_zero {et : ATag} (h1 : et ≠ .described) (h2 : et ≠ .invalid) :
    elemCtorB et ≠ 0 := by
  cases et <;> simp [elemCtorB] at *

theorem tagOfCtor_elemCtorB {et : ATag} (h1 : et ≠ .described) (h2 : et ≠ .invalid) :
    tagOfCtor (elemCtorB et) = et := by
  cases et <;> simp [elemCtorB, tagOfCtor] at *

theorem decMany_of_encoded (dec : List Nat → DRes AVal) :
    ∀ (xs : List AVal),
    (∀ w ∈ xs, ∀ rest : List Nat, (encodeA w ++ rest).length ≤ (encList xs).length →
      dec (encodeA w ++ rest) = .ok w (encodeA w).length) →
    decMany dec xs.length (encList xs) = .ok xs (encList xs).length := by
  intro xs
  induction xs with
  | nil => intro _; rfl
  | cons x xs ih =>
    intro hdec
    have h1 : dec (encodeA x ++ encList xs) = .ok x (encodeA x).length :=
      hdec x (List.mem_cons_self x xs) (encList xs) (by rw [encList_cons])
    have h2 : decMany dec xs.length (encList xs) = .ok xs (encList xs).length := by
      refine ih (fun w hw rest hlen => hdec w (List.mem_cons_of_mem x hw) rest ?_)
      rw [encList_cons]
      simp only [List.length_append] at *
      omega
    have h3 : (encodeA x ++ encList xs).drop (encodeA x).length = encList xs :=
      List.drop_left _ _
    rw [encList_cons]
    show decMany dec (xs.length + 1) (encodeA x ++ encList xs) = _
    rw [decMany, h1]
    simp only [h3, h2, List.length_append]

theorem decManyElems_of_encoded (dec : List Nat → DRes AVal) :
    ∀ (xs : List AVal),
    (∀ w ∈ xs, ∀ rest : List Nat, (encElem w ++ rest).length ≤ (encElems xs).length →
      dec (encElem w ++ rest) = .ok w (encElem w).length) →
    decMany dec xs.length (encElems xs) = .ok xs (encElems xs).length := by
  intro xs
  induction xs with
  | nil => intro _; rfl
  | cons x xs ih =>
    intro hdec
    have h1 : dec (encElem x ++ encElems xs) = .ok x (encElem x).length :=
      hdec x (List.mem_cons_self x xs) (encElems xs) (by rw [encElems_cons])
    have h2 : decMany dec xs.length (encElems xs) = .ok xs (encElems xs).length := by
      refine ih (fun w hw rest hlen => hdec w (List.mem_cons_of_mem x hw) rest ?_)
      rw [encElems_cons]
      simp only [List.length_append] at *
      omega
    have h3 : (encElem x ++ encElems xs).drop (encElem x).length = encElems xs :=
      List.drop_left _ _
    rw [encElems_cons]
    show decMany dec (xs.length + 1) (encElem x ++ encElems xs) = _
    rw [decMany, h1]
    simp only [h3, h2, List.length_append]


theorem beBytes_one (n : Nat) (h : n < 256) : beBytes 1 n = [n] := by
  simp [beBytes]
  omega

theorem rdSeg_of_encoded (szW : Nat) (p extra : List Nat) (k : List Nat → Except PErr AVal)
    (h : p.length < 256 ^ szW) :
    rdSeg szW (beBytes szW p.length ++ (p ++ extra)) k = liftE (k p) (szW + p.length) := by
  simp only [rdSeg, segment_of_encoded szW p extra h]

theorem parseCompound_of_encoded (szW : Nat) (dec : List Nat → DRes AVal)
    (xs : List AVal) (mk : Nat → List AVal → Except PErr AVal)
    (hlt : xs.length < 256 ^ szW)
    (hdec : ∀ w ∈ xs, ∀ rest : List Nat,
      (encodeA w ++ rest).length ≤ (encList xs).length →
      dec (encodeA w ++ rest) = .ok w (encodeA w).length) :
    parseCompound szW (beBytes szW xs.length ++ encList xs) dec mk = mk xs.length xs := by
  have hlen : (beBytes szW xs.length).length = szW := beBytes_length _ _
  have t1 : (beBytes szW xs.length ++ encList xs).take szW = beBytes szW xs.length := by
    rw [List.take_append_of_le_length (by omega), List.take_of_length_le (by omega)]
  have t2 : (beBytes szW xs.length ++ encList xs).drop szW = encList xs := by
    rw [List.drop_append_of_le_length (by omega), List.drop_eq_nil_of_le (by omega),
      List.nil_append]
  simp only [parseCompound, t1, t2, beVal_beBytes _ _ hlt]
  rw [if_pos (by simp [hlen]), decMany_of_encoded dec xs hdec]
  simp

theorem parseArr_of_encoded (szW : Nat) (delem : Nat → List Nat → DRes AVal)
    (et : ATag) (xs : List AVal)
    (h1 : et ≠ .described) (h2 : et ≠ .invalid)
    (hlt : xs.length < 256 ^ szW)
    (hdec : ∀ w ∈ xs, ∀ rest : List Nat,
      (encElem w ++ rest).length ≤ (encElems xs).length →
      delem (elemCtorB et) (encElem w ++ rest) = .ok w (encElem w).length) :
    parseArr szW (beBytes szW xs.length ++ (elemCtor et ++ encElems xs)) delem =
      .ok (.aarray et xs) := by
  have hlen : (beBytes szW xs.length).length = szW := beBytes_length _ _
  have t1 : (beBytes szW xs.length ++ (elemCtor et ++ encElems xs)).take szW =
      beBytes szW xs.length := by
    rw [List.take_append_of_le_length (by omega), List.take_of_length_le (by omega)]
  have t2 : (beBytes szW xs.length ++ (elemCtor et ++ encElems xs)).drop szW =
      elemCtorB et :: encElems xs := by
    rw [List.drop_append_of_le_length (by omega), List.drop_eq_nil_of_le (by omega),
      List.nil_append]
    rfl
  simp only [parseArr, t1, t2, beVal_beBytes _ _ hlt]
  rw [if_pos (by simp [hlen]), if_neg (elemCtorB_ne_zero h1 h2),
    decManyElems_of_encoded (delem (elemCtorB et)) xs hdec]
  simp [tagOfCtor_elemCtorB h1 h2]


theorem decElemF_row_vbin32 (g : Nat) (dec : List Nat → DRes AVal) (bs : List Nat) :
    decElemF (g + 1) dec 0xb0 bs = rdSeg 4 bs (fun p => .ok (.abinary p)) := rfl

theorem decElemF_row_str32 (g : Nat) (dec : List Nat → DRes AVal) (bs : List Nat) :
    decElemF (g + 1) dec 0xb1 bs =
      rdSeg 4 bs (fun p => if utf8Valid p then .ok (.astring p) else .error .malformed) := rfl

theorem decElemF_row_sym32 (g : Nat) (dec : List Nat → DRes AVal) (bs : List Nat) :
    decElemF (g + 1) dec 0xb3 bs =
      rdSeg 4 bs (fun p => if p.all (fun b => b < 128) then .ok (.asymbol p) else .error .malformed) := rfl

theorem decElemF_row_list32 (g : Nat) (dec : List Nat → DRes AVal) (bs : List Nat) :
    decElemF (g + 1) dec 0xd0 bs =
      rdSeg 4 bs (fun p => parseCompound 4 p dec (fun _ vs => .ok (.alist vs))) := rfl

theorem decElemF_row_map32 (g : Nat) (dec : List Nat → DRes AVal) (bs : List Nat) :
    decElemF (g + 1) dec 0xd1 bs =
      rdSeg 4 bs (fun p => parseCompound 4 p dec
        (fun c vs => if c % 2 = 0 then .ok (.amap vs) else .error .malformed)) := rfl

theorem decElemF_row_arr32 (g : Nat) (dec : List Nat → DRes AVal) (bs : List Nat) :
    decElemF (g + 1) dec 0xf0 bs =
      rdSeg 4 bs (fun p => parseArr 4 p (decElemF g dec)) := rfl

theorem tags_all_of_wfa {xs : List AVal} {et : ATag}
    (h : xs.all (fun x => tagOf x == et) = true) {w : AVal} (hw : w ∈ xs) :
    tagOf w = et := by
  rw [List.all_eq_true] at h
  simpa using h w hw

theorem decElemF_of_encoded (dec : List Nat → DRes AVal) (B : Nat)
    (hdec : ∀ w rest, wfa w = true → (encodeA w ++ rest).length ≤ B →
      dec (encodeA w ++ rest) = .ok w (encodeA w).length) :
    ∀ (g : Nat) (v : AVal) (extra : List Nat), wfa v = true →
    tagOf v ≠ .described →
    (encElem v ++ extra).length < g → (encElem v).length ≤ B →
    decElemF g dec (elemCtorB (tagOf v)) (encElem v ++ extra) = .ok v (encElem v).length := by
  intro g
  induction g with
  | zero =>
    intro v extra _ _ h _
    exact absurd h (by omega)
  | succ g ih =>
    intro v extra hwf htag hg hB
    cases v with
    | anull => rfl
    | abool b => cases b <;> rfl
    | aubyte n =>
      simp only [wfa, decide_eq_true_eq] at hwf
      show rdFix 1 ([n] ++ extra) (fun n => .aubyte n) = .ok (.aubyte n) ([n] : List Nat).length
      rw [← beBytes_one n hwf, rdFix_of_encoded 1 n extra _ (by simpa using hwf), beBytes_length]
    | abyte i =>
      simp only [wfa, Bool.and_eq_true, decide_eq_true_eq] at hwf
      show rdFix 1 ([tcNat 1 i] ++ extra) (fun n => .abyte (tcInt 1 n)) =
        .ok (.abyte i) ([tcNat 1 i] : List Nat).length
      rw [← beBytes_one _ (tcNat_lt 1 i), rdFix_of_encoded 1 _ extra _ (tcNat_lt 1 i),
        beBytes_length, tcInt_tcNat 1 i (by norm_num) (by norm_num; omega) (by norm_num; omega)]
    | aushort n =>
      simp only [wfa, decide_eq_true_eq] at hwf
      show rdFix 2 (beBytes 2 n ++ extra) (fun n => .aushort n) = .ok (.aushort n) (beBytes 2 n).length
      rw [rdFix_of_encoded 2 n extra _ (by norm_num; omega), beBytes_length]
    | ashort i =>
      simp only [wfa, Bool.and_eq_true, decide_eq_true_eq] at hwf
      show rdFix 2 (beBytes 2 (tcNat 2 i) ++ extra) (fun n => .ashort (tcInt 2 n)) =
        .ok (.ashort i) (beBytes 2 (tcNat 2 i)).length
      rw [rdFix_of_encoded 2 _ extra _ (tcNat_lt 2 i), beBytes_length,
        tcInt_tcNat 2 i (by norm_num) (by norm_num; omega) (by norm_num; omega)]
    | auint n =>
      simp only [wfa, decide_eq_true_eq] at hwf
      show rdFix 4 (beBytes 4 n ++ extra) (fun n => .auint n) = .ok (.auint n) (beBytes 4 n).length
      rw [rdFix_of_encoded 4 n extra _ (by norm_num; omega), beBytes_length]
    | aint i =>
      simp only [wfa, Bool.and_eq_true, decide_eq_true_eq] at hwf
      show rdFix 4 (beBytes 4 (tcNat 4 i) ++ extra) (fun n => .aint (tcInt 4 n)) =
        .ok (.aint i) (beBytes 4 (tcNat 4 i)).length
      rw [rdFix_of_encoded 4 _ extra _ (tcNat_lt 4 i), beBytes_length,
        tcInt_tcNat 4 i (by norm_num) (by norm_num; omega) (by norm_num; omega)]
    | achar n =>
      simp only [wfa, decide_eq_true_eq] at hwf
      show rdFix 4 (beBytes 4 n ++ extra) (fun n => .achar n) = .ok (.achar n) (beBytes 4 n).length
      rw [rdFix_of_encoded 4 n extra _ (by norm_num; omega), beBytes_length]
    | afloat b =>
      simp only [wfa, decide_eq_true_eq] at hwf
      show rdFix 4 (beBytes 4 b ++ extra) (fun n => .afloat n) = .ok (.afloat b) (beBytes 4 b).length
      rw [rdFix_of_encoded 4 b extra _ (by norm_num; omega), beBytes_length]
    | aulong n =>
      simp only [wfa, decide_eq_true_eq] at hwf
      show rdFix 8 (beBytes 8 n ++ extra) (fun n => .aulong n) = .ok (.aulong n) (beBytes 8 n).length
      rw [rdFix_of_encoded 8 n extra _ (by norm_num; omega), beBytes_length]
    | along i =>
      simp only [wfa, Bool.and_eq_true, decide_eq_true_eq] at hwf
      show rdFix 8 (beBytes 8 (tcNat 8 i) ++ extra) (fun n => .along (tcInt 8 n)) =
        .ok (.along i) (beBytes 8 (tcNat 8 i)).length
      rw [rdFix_of_encoded 8 _ extra _ (tcNat_lt 8 i), beBytes_length,
        tcInt_tcNat 8 i (by norm_num) (by norm_num; omega) (by norm_num; omega)]
    | atimestamp ms =>
      simp only [wfa, Bool.and_eq_true, decide_eq_true_eq] at hwf
      show rdFix 8 (beBytes 8 (tcNat 8 ms) ++ extra) (fun n => .atimestamp (tcInt 8 n)) =
        .ok (.atimestamp ms) (beBytes 8 (tcNat 8 ms)).length
      rw [rdFix_of_encoded 8 _ extra _ (tcNat_lt 8 ms), beBytes_length,
        tcInt_tcNat 8 ms (by norm_num) (by norm_num; omega) (by norm_num; omega)]
    | adouble b =>
      simp only [wfa, decide_eq_true_eq] at hwf
      show rdFix 8 (beBytes 8 b ++ extra) (fun n => .adouble n) = .ok (.adouble b) (beBytes 8 b).length
      rw [rdFix_of_encoded 8 b extra _ (by norm_num; omega), beBytes_length]
    | auuid bs =>
      simp only [wfa, Bool.and_eq_true, decide_eq_true_eq] at hwf
      show (if 16 ≤ (bs ++ extra).length then DRes.ok (AVal.auuid ((bs ++ extra).take 16)) 16
          else DRes.uflow) = DRes.ok (AVal.auuid bs) bs.length
      rw [if_pos (by simp [hwf.1]), List.take_append_of_le_length (by omega),
        List.take_of_length_le (by omega), hwf.1]
    | abinary bs =>
      simp only [wfa, Bool.and_eq_true, decide_eq_true_eq] at hwf
      simp only [tagOf, elemCtorB, encElem]
      rw [decElemF_row_vbin32, List.append_assoc,
        rdSeg_of_encoded 4 bs extra _ (by norm_num; omega)]
      simp [liftE, beBytes_length]
    | astring bs =>
      simp only [wfa, Bool.and_eq_true, decide_eq_true_eq] at hwf
      simp only [tagOf, elemCtorB, encElem]
      rw [decElemF_row_str32, List.append_assoc,
        rdSeg_of_encoded 4 bs extra _ (by norm_num; omega)]
      simp [liftE, beBytes_length, hwf.2]
    | asymbol bs =>
      simp only [wfa, Bool.and_eq_true, decide_eq_true_eq] at hwf
      simp only [tagOf, elemCtorB, encElem]
      rw [decElemF_row_sym32, List.append_assoc,
        rdSeg_of_encoded 4 bs extra _ (by norm_num; omega)]
      simp [liftE, beBytes_length, hwf.2]
    | alist xs =>
      simp only [wfa, Bool.and_eq_true, decide_eq_true_eq] at hwf
      obtain ⟨⟨hwl, hsz⟩, hcnt⟩ := hwf
      have hP : ((encList xs).length + 4) = (beBytes 4 xs.length ++ encList xs).length := by
        simp [beBytes_length]
        omega
      have hBsub : (encList xs).length ≤ B := by
        simp only [encElem, List.length_append, beBytes_length] at hB
        omega
      have hdec2 : ∀ w ∈ xs, ∀ rest : List Nat,
          (encodeA w ++ rest).length ≤ (encList xs).length →
          dec (encodeA w ++ rest) = .ok w (encodeA w).length := by
        intro w hw rest hlen
        exact hdec w rest (wfaList_mem hwl hw) (by omega)
      simp only [tagOf, elemCtorB, encElem]
      rw [decElemF_row_list32, hP, List.append_assoc,
        rdSeg_of_encoded 4 _ extra _ (by rw [← hP]; norm_num; omega)]
      rw [parseCompound_of_encoded 4 dec xs _ (by norm_num; omega) hdec2]
      simp [liftE, beBytes_length]
    | amap kvs =>
      simp only [wfa, Bool.and_eq_true, decide_eq_true_eq] at hwf
      obtain ⟨⟨⟨hwl, heven⟩, hsz⟩, hcnt⟩ := hwf
      have hP : ((encList kvs).length + 4) = (beBytes 4 kvs.length ++ encList kvs).length := by
        simp [beBytes_length]
        omega
      have hBsub : (encList kvs).length ≤ B := by
        simp only [encElem, List.length_append, beBytes_length] at hB
        omega
      have hdec2 : ∀ w ∈ kvs, ∀ rest : List Nat,
          (encodeA w ++ rest).length ≤ (encList kvs).length →
          dec (encodeA w ++ rest) = .ok w (encodeA w).length := by
        intro w hw rest hlen
        exact hdec w rest (wfaList_mem hwl hw) (by omega)
      simp only [tagOf, elemCtorB, encElem]
      rw [decElemF_row_map32, hP, List.append_assoc,
        rdSeg_of_encoded 4 _ extra _ (by rw [← hP]; norm_num; omega)]
      rw [parseCompound_of_encoded 4 dec kvs _ (by norm_num; omega) hdec2]
      rw [if_pos heven]
      simp [liftE, beBytes_length]
    | aarray et xs =>
      simp only [wfa, Bool.and_eq_true, decide_eq_true_eq] at hwf
      obtain ⟨⟨⟨⟨⟨hwl, htags⟩, hd⟩, hi⟩, hsz⟩, hcnt⟩ := hwf
      have hctl : (elemCtor et).length = 1 := rfl
      have hP : ((encElems xs).length + (elemCtor et).length + 4) =
          (beBytes 4 xs.length ++ (elemCtor et ++ encElems xs)).length := by
        simp [beBytes_length, hctl]
        omega
      have hBsub : (encElems xs).length ≤ B := by
        simp only [encElem, List.length_append, beBytes_length, hctl] at hB
        omega
      have hglt : (encElems xs).length < g := by
        simp only [encElem, List.length_append, beBytes_length, hctl] at hg
        omega
      have hdec2 : ∀ w ∈ xs, ∀ rest : List Nat,
          (encElem w ++ rest).length ≤ (encElems xs).length →
          decElemF g dec (elemCtorB et) (encElem w ++ rest) = .ok w (encElem w).length := by
        intro w hw rest hlen
        have htw : tagOf w = et := tags_all_of_wfa htags hw
        have := ih w rest (wfaList_mem hwl hw) (by rw [htw]; exact hd)
          (by simp only [List.length_append] at *; omega)
          (by simp only [List.length_append] at *; omega)
        rwa [htw] at this
      simp only [tagOf, elemCtorB, encElem]
      rw [decElemF_row_arr32, hP, List.append_assoc,
        rdSeg_of_encoded 4 _ extra _ (by rw [← hP]; norm_num; omega)]
      rw [parseArr_of_encoded 4 (decElemF g dec) et xs hd hi (by norm_num; omega) hdec2]
      simp [liftE, beBytes_length, hctl]
    | adescribed d v => exact absurd rfl htag


theorem tagOf_ne_invalid (v : AVal) : tagOf v ≠ .invalid := by
  cases v <;> simp [tagOf]

theorem decElemF_row_smalluint (g : Nat) (dec : List Nat → DRes AVal) (bs : List Nat) :
    decElemF (g + 1) dec 0x52 bs = rdFix 1 bs (fun n => .auint n) := rfl

theorem decElemF_row_smallulong (g : Nat) (dec : List Nat → DRes AVal) (bs : List Nat) :
    decElemF (g + 1) dec 0x53 bs = rdFix 1 bs (fun n => .aulong n) := rfl

theorem decElemF_row_smallint (g : Nat) (dec : List Nat → DRes AVal) (bs : List Nat) :
    decElemF (g + 1) dec 0x54 bs = rdFix 1 bs (fun n => .aint (tcInt 1 n)) := rfl

theorem decElemF_row_smalllong (g : Nat) (dec : List Nat → DRes AVal) (bs : List Nat) :
    decElemF (g + 1) dec 0x55 bs = rdFix 1 bs (fun n => .along (tcInt 1 n)) := rfl

theorem decElemF_row_vbin8 (g : Nat) (dec : List Nat → DRes AVal) (bs : List Nat) :
    decElemF (g + 1) dec 0xa0 bs = rdSeg 1 bs (fun p => .ok (.abinary p)) := rfl

theorem decElemF_row_str8 (g : Nat) (dec : List Nat → DRes AVal) (bs : List Nat) :
    decElemF (g + 1) dec 0xa1 bs =
      rdSeg 1 bs (fun p => if utf8Valid p then .ok (.astring p) else .error .malformed) := rfl

theorem decElemF_row_sym8 (g : Nat) (dec : List Nat → DRes AVal) (bs : List Nat) :
    decElemF (g + 1) dec 0xa3 bs =
      rdSeg 1 bs (fun p => if p.all (fun b => b < 128) then .ok (.asymbol p) else .error .malformed) := rfl

theorem decElemF_row_list8 (g : Nat) (dec : List Nat → DRes AVal) (bs : List Nat) :
    decElemF (g + 1) dec 0xc0 bs =
      rdSeg 1 bs (fun p => parseCompound 1 p dec (fun _ vs => .ok (.alist vs))) := rfl

theorem decElemF_row_map8 (g : Nat) (dec : List Nat → DRes AVal) (bs : List Nat) :
    decElemF (g + 1) dec 0xc1 bs =
      rdSeg 1 bs (fun p => parseCompound 1 p dec
        (fun c vs => if c % 2 = 0 then .ok (.amap vs) else .error .malformed)) := rfl

theorem decElemF_row_arr8 (g : Nat) (dec : List Nat → DRes AVal) (bs : List Nat) :
    decElemF (g + 1) dec 0xe0 bs =
      rdSeg 1 bs (fun p => parseArr 1 p (decElemF g dec)) := rfl

theorem rdSeg_one_of_encoded (s : Nat) (p extra : List Nat) (k : List Nat → Except PErr AVal)
    (h : p.length = s) (hs : s ≤ 255) :
    rdSeg 1 (s :: (p ++ extra)) k = liftE (k p) (1 + s) := by
  simp only [rdSeg, segment_one_of_encoded s p extra h hs]

/-- Dispatching step shared by all cases of the main decode theorem in which
the minimal wire form coincides with the full-width element form. -/
theorem decV_via_elem (f : Nat) (v : AVal) (extra : List Nat)
    (hwf : wfa v = true) (htag : tagOf v ≠ .described)
    (ih : ∀ w rest, wfa w = true → (encodeA w ++ rest).length < f →
      decV f (encodeA w ++ rest) = .ok w (encodeA w).length)
    (henc : encodeA v = elemCtorB (tagOf v) :: encElem v)
    (hlen : (encodeA v ++ extra).length < f + 1) :
    decV (f + 1) (encodeA v ++ extra) = .ok v (encodeA v).length := by
  have hB : (encElem v ++ extra).length < f := by
    rw [henc] at hlen
    simp only [List.cons_append, List.length_cons, List.length_append] at *
    omega
  have h := decElemF_of_encoded (decV f) ((encElem v ++ extra).length)
    (fun w rest hw hl => ih w rest hw (by omega))
    ((encElem v ++ extra).length + 1) v extra hwf htag (by omega)
    (by simp only [List.length_append]; omega)
  rw [henc]
  simp only [List.cons_append]
  simp only [decV]
  rw [if_neg (elemCtorB_ne_zero htag (tagOf_ne_invalid v)), h]
  simp [DRes.shift]

theorem encodeA_length_pos (v : AVal) : 0 < (encodeA v).length := by
  cases v with
  | abool b => cases b <;> simp [encodeA]
  | auint n => simp only [encodeA]; split_ifs <;> simp
  | aint i => simp only [encodeA]; split_ifs <;> simp
  | aulong n => simp only [encodeA]; split_ifs <;> simp
  | along i => simp only [encodeA]; split_ifs <;> simp
  | abinary bs => simp only [encodeA]; split_ifs <;> simp
  | astring bs => simp only [encodeA]; split_ifs <;> simp
  | asymbol bs => simp only [encodeA]; split_ifs <;> simp
  | alist xs =>
    cases xs with
    | nil => simp [encodeA]
    | cons x xs => simp only [encodeA]; split_ifs <;> simp
  | amap kvs => simp only [encodeA]; split_ifs <;> simp
  | aarray et xs => simp only [encodeA]; split_ifs <;> simp
  | _ => simp [encodeA]

theorem decV_of_encoded :
    ∀ (f : Nat) (v : AVal) (extra : List Nat), wfa v = true →
    (encodeA v ++ extra).length < f →
    decV f (encodeA v ++ extra) = .ok v (encodeA v).length := by
  intro f
  induction f with
  | zero =>
    intro v extra _ h
    exact absurd h (by omega)
  | succ f ih =>
    intro v extra hwf hlen
    cases v with
    | anull => rfl
    | abool b => cases b <;> rfl
    | aubyte n => exact decV_via_elem f _ extra hwf (by simp [tagOf]) ih rfl hlen
    | abyte i => exact decV_via_elem f _ extra hwf (by simp [tagOf]) ih rfl hlen
    | aushort n => exact decV_via_elem f _ extra hwf (by simp [tagOf]) ih rfl hlen
    | ashort i => exact decV_via_elem f _ extra hwf (by simp [tagOf]) ih rfl hlen
    | achar n => exact decV_via_elem f _ extra hwf (by simp [tagOf]) ih rfl hlen
    | afloat b => exact decV_via_elem f _ extra hwf (by simp [tagOf]) ih rfl hlen
    | adouble b => exact decV_via_elem f _ extra hwf (by simp [tagOf]) ih rfl hlen
    | atimestamp ms => exact decV_via_elem f _ extra hwf (by simp [tagOf]) ih rfl hlen
    | auuid bs => exact decV_via_elem f _ extra hwf (by simp [tagOf]) ih rfl hlen
    | auint n =>
      by_cases h0 : n = 0
      · subst h0
        simp only [encodeA, if_pos rfl]
        rfl
      · by_cases h255 : n ≤ 255
        · simp only [encodeA, if_neg h0, if_pos h255, List.cons_append, List.nil_append]
          simp only [decV]
          rw [if_neg (by norm_num), decElemF_row_smalluint]
          rw [show (n : Nat) :: extra = beBytes 1 n ++ extra from by
            simp [beBytes_one n (by omega : n < 256)]]
          rw [rdFix_of_encoded 1 n extra _ (by norm_num; omega)]
          rfl
        · exact decV_via_elem f _ extra hwf (by simp [tagOf]) ih
            (by simp [encodeA, if_neg h0, if_neg h255, tagOf, elemCtorB, encElem]) hlen
    | aulong n =>
      by_cases h0 : n = 0
      · subst h0
        simp only [encodeA, if_pos rfl]
        rfl
      · by_cases h255 : n ≤ 255
        · simp only [encodeA, if_neg h0, if_pos h255, List.cons_append, List.nil_append]
          simp only [decV]
          rw [if_neg (by norm_num), decElemF_row_smallulong]
          rw [show (n : Nat) :: extra = beBytes 1 n ++ extra from by
            simp [beBytes_one n (by omega : n < 256)]]
          rw [rdFix_of_encoded 1 n extra _ (by norm_num; omega)]
          rfl
        · exact decV_via_elem f _ extra hwf (by simp [tagOf]) ih
            (by simp [encodeA, if_neg h0, if_neg h255, tagOf, elemCtorB, encElem]) hlen
    | aint i =>
      by_cases hsm : -128 ≤ i ∧ i < 128
      · simp only [encodeA, if_pos hsm, List.cons_append, List.nil_append]
        simp only [decV]
        rw [if_neg (by norm_num), decElemF_row_smallint]
        rw [show tcNat 1 i :: extra = beBytes 1 (tcNat 1 i) ++ extra from by
          simp [beBytes_one _ (tcNat_lt 1 i)]]
        rw [rdFix_of_encoded 1 _ extra _ (tcNat_lt 1 i)]
        rw [tcInt_tcNat 1 i (by norm_num) (by norm_num; omega) (by norm_num; omega)]
        rfl
      · exact decV_via_elem f _ extra hwf (by simp [tagOf]) ih
          (by simp [encodeA, if_neg hsm, tagOf, elemCtorB, encElem]) hlen
    | along i =>
      by_cases hsm : -128 ≤ i ∧ i < 128
      · simp only [encodeA, if_pos hsm, List.cons_append, List.nil_append]
        simp only [decV]
        rw [if_neg (by norm_num), decElemF_row_smalllong]
        rw [show tcNat 1 i :: extra = beBytes 1 (tcNat 1 i) ++ extra from by
          simp [beBytes_one _ (tcNat_lt 1 i)]]
        rw [rdFix_of_encoded 1 _ extra _ (tcNat_lt 1 i)]
        rw [tcInt_tcNat 1 i (by norm_num) (by norm_num; omega) (by norm_num; omega)]
        rfl
      · exact decV_via_elem f _ extra hwf (by simp [tagOf]) ih
          (by simp [encodeA, if_neg hsm, tagOf, elemCtorB, encElem]) hlen
    | abinary bs =>
      by_cases hsm : bs.length ≤ 255
      · simp only [encodeA, if_pos hsm, List.cons_append, List.nil_append]
        simp only [decV]
        rw [if_neg (by norm_num), decElemF_row_vbin8,
          rdSeg_one_of_encoded bs.length bs extra _ rfl hsm]
        simp [liftE, DRes.shift]
        omega
      · exact decV_via_elem f _ extra hwf (by simp [tagOf]) ih
          (by simp [encodeA, if_neg hsm, tagOf, elemCtorB, encElem]) hlen
    | astring bs =>
      simp only [wfa, Bool.and_eq_true, decide_eq_true_eq] at hwf
      by_cases hsm : bs.length ≤ 255
      · simp only [encodeA, if_pos hsm, List.cons_append, List.nil_append]
        simp only [decV]
        rw [if_neg (by norm_num), decElemF_row_str8,
          rdSeg_one_of_encoded bs.length bs extra _ rfl hsm]
        rw [if_pos hwf.2]
        simp [liftE, DRes.shift]
        omega
      · exact decV_via_elem f _ extra (by simp [wfa, hwf.2]; omega) (by simp [tagOf]) ih
          (by simp [encodeA, if_neg hsm, tagOf, elemCtorB, encElem]) hlen
    | asymbol bs =>
      simp only [wfa, Bool.and_eq_true, decide_eq_true_eq] at hwf
      by_cases hsm : bs.length ≤ 255
      · simp only [encodeA, if_pos hsm, List.cons_append, List.nil_append]
        simp only [decV]
        rw [if_neg (by norm_num), decElemF_row_sym8,
          rdSeg_one_of_encoded bs.length bs extra _ rfl hsm]
        rw [if_pos hwf.2]
        simp [liftE, DRes.shift]
        omega
      · exact decV_via_elem f _ extra (by simp [wfa, hwf.2]; omega) (by simp [tagOf]) ih
          (by simp [encodeA, if_neg hsm, tagOf, elemCtorB, encElem]) hlen
    | alist xxs =>
      cases xxs with
      | nil => rfl
      | cons x xs =>
        simp only [wfa, Bool.and_eq_true, decide_eq_true_eq] at hwf
        obtain ⟨⟨hwl, hsz⟩, hcnt⟩ := hwf
        have hplt : (encList (x :: xs)).length + 3 + extra.length < f + 1 := by
          have h1 : 3 + (encList (x :: xs)).length ≤ (encodeA (.alist (x :: xs))).length := by
            simp only [encodeA]
            split_ifs <;> simp only [List.length_cons, List.length_append, beBytes_length] <;>
              omega
          simp only [List.length_append] at hlen
          omega
        have hdec2 : ∀ w ∈ x :: xs, ∀ rest : List Nat,
            (encodeA w ++ rest).length ≤ (encList (x :: xs)).length →
            decV f (encodeA w ++ rest) = .ok w (encodeA w).length := by
          intro w hw rest hl
          exact ih w rest (wfaList_mem hwl hw) (by omega)
        by_cases hsm : (encList (x :: xs)).length + 1 ≤ 255 ∧ xs.length + 1 ≤ 255
        · simp only [encodeA, if_pos hsm, List.cons_append, List.nil_append]
          simp only [decV]
          rw [if_neg (by norm_num), decElemF_row_list8]
          rw [show ((xs.length + 1) :: (encList (x :: xs) ++ extra)) =
            (((xs.length + 1) :: encList (x :: xs)) ++ extra) from rfl]
          rw [rdSeg_one_of_encoded ((encList (x :: xs)).length + 1)
            ((xs.length + 1) :: encList (x :: xs)) extra _ (by simp) hsm.1]
          rw [show ((xs.length + 1) :: encList (x :: xs)) =
            beBytes 1 (x :: xs).length ++ encList (x :: xs) from by
            rw [beBytes_one _ (by simp only [List.length_cons]; omega)]
            simp]
          rw [parseCompound_of_encoded 1 (decV f) (x :: xs) _
            (by simp only [List.length_cons]; omega) hdec2]
          simp [liftE, DRes.shift, beBytes_length]
          omega
        · refine decV_via_elem f _ extra ?_ (by simp [tagOf]) ih
            (by simp [encodeA, tagOf, elemCtorB, encElem]; omega) hlen
          simp only [wfa, Bool.and_eq_true, decide_eq_true_eq]
          exact ⟨⟨hwl, hsz⟩, hcnt⟩
    | amap kvs =>
      simp only [wfa, Bool.and_eq_true, decide_eq_true_eq] at hwf
      obtain ⟨⟨⟨hwl, heven⟩, hsz⟩, hcnt⟩ := hwf
      have hplt : (encList kvs).length + 3 + extra.length < f + 1 := by
        have h1 : 3 + (encList kvs).length ≤ (encodeA (.amap kvs)).length := by
          simp only [encodeA]
          split_ifs <;> simp only [List.length_cons, List.length_append, beBytes_length] <;>
            omega
        simp only [List.length_append] at hlen
        omega
      have hdec2 : ∀ w ∈ kvs, ∀ rest : List Nat,
          (encodeA w ++ rest).length ≤ (encList kvs).length →
          decV f (encodeA w ++ rest) = .ok w (encodeA w).length := by
        intro w hw rest hl
        exact ih w rest (wfaList_mem hwl hw) (by omega)
      by_cases hsm : (encList kvs).length + 1 ≤ 255 ∧ kvs.length ≤ 255
      · simp only [encodeA, if_pos hsm, List.cons_append, List.nil_append]
        simp only [decV]
        rw [if_neg (by norm_num), decElemF_row_map8]
        rw [show (kvs.length :: (encList kvs ++ extra)) =
          ((kvs.length :: encList kvs) ++ extra) from rfl]
        rw [rdSeg_one_of_encoded ((encList kvs).length + 1)
          (kvs.length :: encList kvs) extra _ (by simp) hsm.1]
        rw [show (kvs.length :: encList kvs) = beBytes 1 kvs.length ++ encList kvs from by
          rw [beBytes_one _ (by omega)]
          simp]
        rw [parseCompound_of_encoded 1 (decV f) kvs _ (by omega) hdec2]
        rw [if_pos heven]
        simp [liftE, DRes.shift, beBytes_length]
        omega
      · refine decV_via_elem f _ extra ?_ (by simp [tagOf]) ih
          (by simp [encodeA, tagOf, elemCtorB, encElem]; omega) hlen
        simp only [wfa, Bool.and_eq_true, decide_eq_true_eq]
        exact ⟨⟨⟨hwl, heven⟩, hsz⟩, hcnt⟩
    | aarray et xs =>
      simp only [wfa, Bool.and_eq_true, decide_eq_true_eq] at hwf
      obtain ⟨⟨⟨⟨⟨hwl, htags⟩, hd⟩, hi⟩, hsz⟩, hcnt⟩ := hwf
      have hctl : (elemCtor et).length = 1 := rfl
      have hplt : (encElems xs).length + 4 + extra.length < f + 1 := by
        have h1 : 4 + (encElems xs).length ≤ (encodeA (.aarray et xs)).length := by
          simp only [encodeA]
          split_ifs <;>
            simp only [List.length_cons, List.length_append, beBytes_length, elemCtor,
              List.length_nil] <;>
            omega
        simp only [List.length_append] at hlen
        omega
      have hdecB : ∀ w rest, wfa w = true →
          (encodeA w ++ rest).length ≤ (encElems xs).length →
          decV f (encodeA w ++ rest) = .ok w (encodeA w).length := by
        intro w rest hw hl
        exact ih w rest hw (by omega)
      have hdecel : ∀ (g : Nat), (encElems xs).length < g →
          ∀ w ∈ xs, ∀ rest : List Nat,
          (encElem w ++ rest).length ≤ (encElems xs).length →
          decElemF g (decV f) (elemCtorB et) (encElem w ++ rest) = .ok w (encElem w).length := by
        intro g hg w hw rest hl
        have htw : tagOf w = et := tags_all_of_wfa htags hw
        have := decElemF_of_encoded (decV f) (encElems xs).length hdecB g w rest
          (wfaList_mem hwl hw) (by rw [htw]; exact hd) (by omega)
          (by simp only [List.length_append] at hl; omega)
        rwa [htw] at this
      by_cases hsm : (encElems xs).length + (elemCtor et).length + 1 ≤ 255 ∧ xs.length ≤ 255
      · simp only [encodeA, if_pos hsm, List.cons_append, List.nil_append]
        simp only [decV]
        rw [if_neg (by norm_num), decElemF_row_arr8]
        rw [show (xs.length :: ((elemCtor et ++ encElems xs) ++ extra)) =
          ((xs.length :: (elemCtor et ++ encElems xs)) ++ extra) from rfl]
        rw [rdSeg_one_of_encoded ((encElems xs).length + (elemCtor et).length + 1)
          (xs.length :: (elemCtor et ++ encElems xs)) extra _
          (by simp [hctl]; omega) hsm.1]
        rw [show (xs.length :: (elemCtor et ++ encElems xs)) =
          beBytes 1 xs.length ++ (elemCtor et ++ encElems xs) from by
          rw [beBytes_one _ (by omega)]
          simp]
        rw [parseArr_of_encoded 1 _ et xs hd hi (by omega)
          (hdecel _ (by
            simp only [List.cons_append, List.length_cons, List.length_append, hctl]
            omega))]
        simp [liftE, DRes.shift, hctl, beBytes_length]
        omega
      · refine decV_via_elem f _ extra ?_ (by simp [tagOf]) ih
          (by simp [encodeA, tagOf, elemCtorB, encElem]; omega) hlen
        simp only [wfa, Bool.and_eq_true, decide_eq_true_eq]
        exact ⟨⟨⟨⟨⟨hwl, htags⟩, hd⟩, hi⟩, hsz⟩, hcnt⟩
    | adescribed d b =>
      simp only [wfa, Bool.and_eq_true] at hwf
      have hlens : (encodeA d).length + (encodeA b).length + 1 + extra.length < f + 1 := by
        simp only [encodeA, List.cons_append, List.length_cons, List.length_append] at hlen
        omega
      simp only [encodeA, List.cons_append, List.append_assoc]
      simp only [decV]
      rw [if_pos trivial]
      rw [ih d (encodeA b ++ extra) hwf.1 (by simp only [List.length_append]; omega)]
      simp only [List.drop_left]
      rw [ih b extra hwf.2 (by simp only [List.length_append]; omega)]
      simp only [List.length_append, List.length_cons, DRes.ok.injEq]
      constructor
      · trivial
      · omega


theorem rdSeg_trunc (szW : Nat) (sz p : List Nat) (k : Nat) (kk : List Nat → Except PErr AVal)
    (hsz : sz.length = szW) (hval : beVal sz = p.length) (hk : k < szW + p.length) :
    rdSeg szW ((sz ++ p).take k) kk = .uflow := by
  simp only [rdSeg, segment_trunc szW sz p k hsz hval hk]

theorem shift_trunc (n : Nat) {r : DRes AVal} (h : r = DRes.uflow) :
    DRes.shift n r = DRes.uflow := by rw [h]; rfl

theorem decElemF_row_ubyte (g : Nat) (dec : List Nat → DRes AVal) (bs : List Nat) :
    decElemF (g + 1) dec 0x50 bs = rdFix 1 bs (fun n => .aubyte n) := rfl

theorem decElemF_row_byte (g : Nat) (dec : List Nat → DRes AVal) (bs : List Nat) :
    decElemF (g + 1) dec 0x51 bs = rdFix 1 bs (fun n => .abyte (tcInt 1 n)) := rfl

theorem decElemF_row_ushort (g : Nat) (dec : List Nat → DRes AVal) (bs : List Nat) :
    decElemF (g + 1) dec 0x60 bs = rdFix 2 bs (fun n => .aushort n) := rfl

theorem decElemF_row_short (g : Nat) (dec : List Nat → DRes AVal) (bs : List Nat) :
    decElemF (g + 1) dec 0x61 bs = rdFix 2 bs (fun n => .ashort (tcInt 2 n)) := rfl

theorem decElemF_row_uint (g : Nat) (dec : List Nat → DRes AVal) (bs : List Nat) :
    decElemF (g + 1) dec 0x70 bs = rdFix 4 bs (fun n => .auint n) := rfl

theorem decElemF_row_int (g : Nat) (dec : List Nat → DRes AVal) (bs : List Nat) :
    decElemF (g + 1) dec 0x71 bs = rdFix 4 bs (fun n => .aint (tcInt 4 n)) := rfl

theorem decElemF_row_float (g : Nat) (dec : List Nat → DRes AVal) (bs : List Nat) :
    decElemF (g + 1) dec 0x72 bs = rdFix 4 bs (fun n => .afloat n) := rfl

theorem decElemF_row_char (g : Nat) (dec : List Nat → DRes AVal) (bs : List Nat) :
    decElemF (g + 1) dec 0x73 bs = rdFix 4 bs (fun n => .achar n) := rfl

theorem decElemF_row_ulong (g : Nat) (dec : List Nat → DRes AVal) (bs : List Nat) :
    decElemF (g + 1) dec 0x80 bs = rdFix 8 bs (fun n => .aulong n) := rfl

theorem decElemF_row_long (g : Nat) (dec : List Nat → DRes AVal) (bs : List Nat) :
    decElemF (g + 1) dec 0x81 bs = rdFix 8 bs (fun n => .along (tcInt 8 n)) := rfl

theorem decElemF_row_double (g : Nat) (dec : List Nat → DRes AVal) (bs : List Nat) :
    decElemF (g + 1) dec 0x82 bs = rdFix 8 bs (fun n => .adouble n) := rfl

theorem decElemF_row_ts (g : Nat) (dec : List Nat → DRes AVal) (bs : List Nat) :
    decElemF (g + 1) dec 0x83 bs = rdFix 8 bs (fun n => .atimestamp (tcInt 8 n)) := rfl

theorem decElemF_row_uuid (g : Nat) (dec : List Nat → DRes AVal) (bs : List Nat) :
    decElemF (g + 1) dec 0x98 bs =
      (if 16 ≤ bs.length then DRes.ok (.auuid (bs.take 16)) 16 else .uflow) := rfl

theorem decV_trunc :
    ∀ (f : Nat) (v : AVal) (k : Nat), wfa v = true →
    k < (encodeA v).length → k < f →
    decV f ((encodeA v).take k) = .uflow := by
  intro f
  induction f with
  | zero =>
    intro v k _ _ h
    exact absurd h (by omega)
  | succ f ih =>
    intro v k hwf hk hkf
    cases k with
    | zero => simp [decV]
    | succ k =>
      cases v with
      | anull => exact absurd hk (by simp [encodeA])
      | abool b => cases b <;> exact absurd hk (by simp [encodeA])
      | aubyte n =>
        simp only [encodeA, List.length_cons, List.length_nil] at hk
        simp only [encodeA, List.take_succ_cons, decV]
        rw [if_neg (by norm_num), decElemF_row_ubyte]
        refine shift_trunc 1 ?_
        exact rdFix_trunc 1 _ _
          (by simp only [List.length_take, List.length_cons, List.length_nil]; omega)
      | abyte i =>
        simp only [encodeA, List.length_cons, List.length_nil] at hk
        simp only [encodeA, List.take_succ_cons, decV]
        rw [if_neg (by norm_num), decElemF_row_byte]
        refine shift_trunc 1 ?_
        exact rdFix_trunc 1 _ _
          (by simp only [List.length_take, List.length_cons, List.length_nil]; omega)
      | aushort n =>
        simp only [encodeA, List.length_cons, beBytes_length] at hk
        simp only [encodeA, List.take_succ_cons, decV]
        rw [if_neg (by norm_num), decElemF_row_ushort]
        refine shift_trunc 1 ?_
        exact rdFix_trunc 2 _ _
          (by simp only [List.length_take, beBytes_length]; omega)
      | ashort i =>
        simp only [encodeA, List.length_cons, beBytes_length] at hk
        simp only [encodeA, List.take_succ_cons, decV]
        rw [if_neg (by norm_num), decElemF_row_short]
        refine shift_trunc 1 ?_
        exact rdFix_trunc 2 _ _
          (by simp only [List.length_take, beBytes_length]; omega)
      | achar n =>
        simp only [encodeA, List.length_cons, beBytes_length] at hk
        simp only [encodeA, List.take_succ_cons, decV]
        rw [if_neg (by norm_num), decElemF_row_char]
        refine shift_trunc 1 ?_
        exact rdFix_trunc 4 _ _
          (by simp only [List.length_take, beBytes_length]; omega)
      | afloat b =>
        simp only [encodeA, List.length_cons, beBytes_length] at hk
        simp only [encodeA, List.take_succ_cons, decV]
        rw [if_neg (by norm_num), decElemF_row_float]
        refine shift_trunc 1 ?_
        exact rdFix_trunc 4 _ _
          (by simp only [List.length_take, beBytes_length]; omega)
      | adouble b =>
        simp only [encodeA, List.length_cons, beBytes_length] at hk
        simp only [encodeA, List.take_succ_cons, decV]
        rw [if_neg (by norm_num), decElemF_row_double]
        refine shift_trunc 1 ?_
        exact rdFix_trunc 8 _ _
          (by simp only [List.length_take, beBytes_length]; omega)
      | atimestamp ms =>
        simp only [encodeA, List.length_cons, beBytes_length] at hk
        simp only [encodeA, List.take_succ_cons, decV]
        rw [if_neg (by norm_num), decElemF_row_ts]
        refine shift_trunc 1 ?_
        exact rdFix_trunc 8 _ _
          (by simp only [List.length_take, beBytes_length]; omega)
      | auuid bs =>
        simp only [wfa, Bool.and_eq_true, decide_eq_true_eq] at hwf
        simp only [encodeA, List.length_cons] at hk
        simp only [encodeA, List.take_succ_cons, decV]
        rw [if_neg (by norm_num), decElemF_row_uuid,
          if_neg (by simp only [List.length_take]; omega)]
        rfl
      | auint n =>
        by_cases h0 : n = 0
        · subst h0
          exact absurd hk (by simp [encodeA])
        · by_cases h255 : n ≤ 255
          · simp only [encodeA, if_neg h0, if_pos h255, List.length_cons,
              List.length_nil] at hk
            simp only [encodeA, if_neg h0, if_pos h255, List.take_succ_cons, decV]
            rw [if_neg (by norm_num), decElemF_row_smalluint]
            refine shift_trunc 1 ?_
            exact rdFix_trunc 1 _ _
              (by simp only [List.length_take, List.length_cons, List.length_nil]; omega)
          · simp only [encodeA, if_neg h0, if_neg h255, List.length_cons, beBytes_length] at hk
            simp only [encodeA, if_neg h0, if_neg h255, List.take_succ_cons, decV]
            rw [if_neg (by norm_num), decElemF_row_uint]
            refine shift_trunc 1 ?_
            exact rdFix_trunc 4 _ _
              (by simp only [List.length_take, beBytes_length]; omega)
      | aulong n =>
        by_cases h0 : n = 0
        · subst h0
          exact absurd hk (by simp [encodeA])
        · by_cases h255 : n ≤ 255
          · simp only [encodeA, if_neg h0, if_pos h255, List.length_cons,
              List.length_nil] at hk
            simp only [encodeA, if_neg h0, if_pos h255, List.take_succ_cons, decV]
            rw [if_neg (by norm_num), decElemF_row_smallulong]
            refine shift_trunc 1 ?_
            exact rdFix_trunc 1 _ _
              (by simp only [List.length_take, List.length_cons, List.length_nil]; omega)
          · simp only [encodeA, if_neg h0, if_neg h255, List.length_cons, beBytes_length] at hk
            simp only [encodeA, if_neg h0, if_neg h255, List.take_succ_cons, decV]
            rw [if_neg (by norm_num), decElemF_row_ulong]
            refine shift_trunc 1 ?_
            exact rdFix_trunc 8 _ _
              (by simp only [List.length_take, beBytes_length]; omega)
      | aint i =>
        by_cases hsm : -128 ≤ i ∧ i < 128
        · simp only [encodeA, if_pos hsm, List.length_cons, List.length_nil] at hk
          simp only [encodeA, if_pos hsm, List.take_succ_cons, decV]
          rw [if_neg (by norm_num), decElemF_row_smallint]
          refine shift_trunc 1 ?_
          exact rdFix_trunc 1 _ _
            (by simp only [List.length_take, List.length_cons, List.length_nil]; omega)
        · simp only [encodeA, if_neg hsm, List.length_cons, beBytes_length] at hk
          simp only [encodeA, if_neg hsm, List.take_succ_cons, decV]
          rw [if_neg (by norm_num), decElemF_row_int]
          refine shift_trunc 1 ?_
          exact rdFix_trunc 4 _ _
            (by simp only [List.length_take, beBytes_length]; omega)
      | along i =>
        by_cases hsm : -128 ≤ i ∧ i < 128
        · simp only [encodeA, if_pos hsm, List.length_cons, List.length_nil] at hk
          simp only [encodeA, if_pos hsm, List.take_succ_cons, decV]
          rw [if_neg (by norm_num), decElemF_row_smalllong]
          refine shift_trunc 1 ?_
          exact rdFix_trunc 1 _ _
            (by simp only [List.length_take, List.length_cons, List.length_nil]; omega)
        · simp only [encodeA, if_neg hsm, List.length_cons, beBytes_length] at hk
          simp only [encodeA, if_neg hsm, List.take_succ_cons, decV]
          rw [if_neg (by norm_num), decElemF_row_long]
          refine shift_trunc 1 ?_
          exact rdFix_trunc 8 _ _
            (by simp only [List.length_take, beBytes_length]; omega)
      | abinary bs =>
        by_cases hsm : bs.length ≤ 255
        · simp only [encodeA, if_pos hsm, List.length_cons] at hk
          simp only [encodeA, if_pos hsm, List.take_succ_cons, decV]
          rw [if_neg (by norm_num), decElemF_row_vbin8]
          refine shift_trunc 1 ?_
          show rdSeg 1 (([bs.length] ++ bs).take k) _ = DRes.uflow
          exact rdSeg_trunc 1 [bs.length] bs k _ rfl (beVal_singleton _)
            (by omega)
        · simp only [encodeA, if_neg hsm, List.length_cons, List.length_append,
            beBytes_length] at hk
          simp only [encodeA, if_neg hsm, List.take_succ_cons, decV]
          rw [if_neg (by norm_num), decElemF_row_vbin32]
          refine shift_trunc 1 ?_
          exact rdSeg_trunc 4 (beBytes 4 bs.length) bs k _ (beBytes_length _ _)
            (beVal_beBytes _ _ (by
              simp only [wfa, Bool.and_eq_true, decide_eq_true_eq] at hwf
              norm_num
              omega))
            (by omega)
      | astring bs =>
        by_cases hsm : bs.length ≤ 255
        · simp only [encodeA, if_pos hsm, List.length_cons] at hk
          simp only [encodeA, if_pos hsm, List.take_succ_cons, decV]
          rw [if_neg (by norm_num), decElemF_row_str8]
          refine shift_trunc 1 ?_
          show rdSeg 1 (([bs.length] ++ bs).take k) _ = DRes.uflow
          exact rdSeg_trunc 1 [bs.length] bs k _ rfl (beVal_singleton _)
            (by omega)
        · simp only [encodeA, if_neg hsm, List.length_cons, List.length_append,
            beBytes_length] at hk
          simp only [encodeA, if_neg hsm, List.take_succ_cons, decV]
          rw [if_neg (by norm_num), decElemF_row_str32]
          refine shift_trunc 1 ?_
          exact rdSeg_trunc 4 (beBytes 4 bs.length) bs k _ (beBytes_length _ _)
            (beVal_beBytes _ _ (by
              simp only [wfa, Bool.and_eq_true, decide_eq_true_eq] at hwf
              norm_num
              omega))
            (by omega)
      | asymbol bs =>
        by_cases hsm : bs.length ≤ 255
        · simp only [encodeA, if_pos hsm, List.length_cons] at hk
          simp only [encodeA, if_pos hsm, List.take_succ_cons, decV]
          rw [if_neg (by norm_num), decElemF_row_sym8]
          refine shift_trunc 1 ?_
          show rdSeg 1 (([bs.length] ++ bs).take k) _ = DRes.uflow
          exact rdSeg_trunc 1 [bs.length] bs k _ rfl (beVal_singleton _)
            (by omega)
        · simp only [encodeA, if_neg hsm, List.length_cons, List.length_append,
            beBytes_length] at hk
          simp only [encodeA, if_neg hsm, List.take_succ_cons, decV]
          rw [if_neg (by norm_num), decElemF_row_sym32]
          refine shift_trunc 1 ?_
          exact rdSeg_trunc 4 (beBytes 4 bs.length) bs k _ (beBytes_length _ _)
            (beVal_beBytes _ _ (by
              simp only [wfa, Bool.and_eq_true, decide_eq_true_eq] at hwf
              norm_num
              omega))
            (by omega)
      | alist xxs =>
        cases xxs with
        | nil => exact absurd hk (by simp [encodeA])
        | cons x xs =>
          simp only [wfa, Bool.and_eq_true, decide_eq_true_eq] at hwf
          obtain ⟨⟨hwl, hsz⟩, hcnt⟩ := hwf
          by_cases hsm : (encList (x :: xs)).length + 1 ≤ 255 ∧ xs.length + 1 ≤ 255
          · simp only [encodeA, if_pos hsm, List.length_cons] at hk
            simp only [encodeA, if_pos hsm, List.take_succ_cons, decV]
            rw [if_neg (by norm_num), decElemF_row_list8]
            refine shift_trunc 1 ?_
            show rdSeg 1 ((([(encList (x :: xs)).length + 1] ++
              ((xs.length + 1) :: encList (x :: xs))).take k)) _ = DRes.uflow
            exact rdSeg_trunc 1 _ _ k _ rfl
              (by simp [beVal_singleton])
              (by simp only [List.length_cons]; omega)
          · simp only [encodeA, if_neg hsm, List.length_cons, List.length_append,
              beBytes_length] at hk
            simp only [encodeA, if_neg hsm, List.take_succ_cons, decV]
            rw [if_neg (by norm_num), decElemF_row_list32]
            refine shift_trunc 1 ?_
            exact rdSeg_trunc 4 (beBytes 4 ((encList (x :: xs)).length + 4))
              (beBytes 4 (xs.length + 1) ++ encList (x :: xs)) k _ (beBytes_length _ _)
              (by rw [beVal_beBytes _ _ (by norm_num; omega)]
                  simp only [List.length_append, beBytes_length]
                  omega)
              (by simp only [List.length_append, beBytes_length]; omega)
      | amap kvs =>
        simp only [wfa, Bool.and_eq_true, decide_eq_true_eq] at hwf
        obtain ⟨⟨⟨hwl, heven⟩, hsz⟩, hcnt⟩ := hwf
        by_cases hsm : (encList kvs).length + 1 ≤ 255 ∧ kvs.length ≤ 255
        · simp only [encodeA, if_pos hsm, List.length_cons] at hk
          simp only [encodeA, if_pos hsm, List.take_succ_cons, decV]
          rw [if_neg (by norm_num), decElemF_row_map8]
          refine shift_trunc 1 ?_
          show rdSeg 1 ((([(encList kvs).length + 1] ++
            (kvs.length :: encList kvs)).take k)) _ = DRes.uflow
          exact rdSeg_trunc 1 _ _ k _ rfl
            (by simp [beVal_singleton])
            (by simp only [List.length_cons]; omega)
        · simp only [encodeA, if_neg hsm, List.length_cons, List.length_append,
            beBytes_length] at hk
          simp only [encodeA, if_neg hsm, List.take_succ_cons, decV]
          rw [if_neg (by norm_num), decElemF_row_map32]
          refine shift_trunc 1 ?_
          exact rdSeg_trunc 4 (beBytes 4 ((encList kvs).length + 4))
            (beBytes 4 kvs.length ++ encList kvs) k _ (beBytes_length _ _)
            (by rw [beVal_beBytes _ _ (by norm_num; omega)]
                simp only [List.length_append, beBytes_length]
                omega)
            (by simp only [List.length_append, beBytes_length]; omega)
      | aarray et xs =>
        simp only [wfa, Bool.and_eq_true, decide_eq_true_eq] at hwf
        obtain ⟨⟨⟨⟨⟨hwl, htags⟩, hd⟩, hi⟩, hsz⟩, hcnt⟩ := hwf
        have hctl : (elemCtor et).length = 1 := rfl
        by_cases hsm : (encElems xs).length + (elemCtor et).length + 1 ≤ 255 ∧ xs.length ≤ 255
        · simp only [encodeA, if_pos hsm] at hk
          simp only [List.length_cons, List.length_append, hctl] at hk
          simp only [encodeA, if_pos hsm, List.take_succ_cons, decV]
          rw [if_neg (by norm_num), decElemF_row_arr8]
          refine shift_trunc 1 ?_
          show rdSeg 1 ((([(encElems xs).length + (elemCtor et).length + 1] ++
            (xs.length :: (elemCtor et ++ encElems xs))).take k)) _ = DRes.uflow
          exact rdSeg_trunc 1 _ _ k _ rfl
            (by simp only [beVal_singleton, List.length_cons, List.length_append, hctl]; omega)
            (by simp only [List.length_cons, List.length_append, hctl]; omega)
        · simp only [encodeA, if_neg hsm] at hk
          simp only [List.length_cons, List.length_append, beBytes_length, hctl] at hk
          simp only [encodeA, if_neg hsm, List.take_succ_cons, decV]
          rw [if_neg (by norm_num), decElemF_row_arr32]
          refine shift_trunc 1 ?_
          exact rdSeg_trunc 4 (beBytes 4 ((encElems xs).length + (elemCtor et).length + 4))
            (beBytes 4 xs.length ++ (elemCtor et ++ encElems xs)) k _ (beBytes_length _ _)
            (by rw [beVal_beBytes _ _ (by simp only [hctl] at hsz ⊢; norm_num; omega)]
                simp only [List.length_append, beBytes_length, hctl]
                omega)
            (by simp only [List.length_append, beBytes_length, hctl]; omega)
      | adescribed d b =>
        simp only [wfa, Bool.and_eq_true] at hwf
        simp only [encodeA, List.length_cons, List.length_append] at hk
        simp only [encodeA, List.take_succ_cons, decV]
        rw [if_pos trivial]
        by_cases hkd : k < (encodeA d).length
        · rw [List.take_append_of_le_length (by omega)]
          rw [ih d k hwf.1 hkd (by omega)]
        · have hsplit : (encodeA d ++ encodeA b).take k =
              encodeA d ++ (encodeA b).take (k - (encodeA d).length) := by
            conv_lhs => rw [show k = (encodeA d).length + (k - (encodeA d).length) from by omega]
            exact List.take_append _
          rw [hsplit]
          rw [decV_of_encoded f d ((encodeA b).take (k - (encodeA d).length)) hwf.1 (by
            have h1 : ((encodeA b).take (k - (encodeA d).length)).length ≤
                k - (encodeA d).length := List.length_take_le _ _
            simp only [List.length_append]
            omega)]
          simp only [List.drop_left]
          rw [ih b (k - (encodeA d).length) hwf.2 (by omega) (by omega)]


theorem goDecode_prefix (v : AVal) (k : Nat) (hwf : wfa v = true)
    (hk : k < (encodeA v).length) :
    goDecode ((encodeA v).take k) = .incomplete := by
  by_cases h0 : k = 0
  · subst h0
    simp [goDecode]
  · have hlen : ((encodeA v).take k).length = k := by
      simp only [List.length_take]
      omega
    simp only [goDecode, pnDecode, hlen]
    rw [if_neg h0, decV_trunc (k + 1) v k hwf hk (by omega)]

theorem goDecode_complete (v : AVal) (hwf : wfa v = true) :
    goDecode (encodeA v) = .ok v (encodeA v).length := by
  have hpos := encodeA_length_pos v
  have h := decV_of_encoded ((encodeA v).length + 1) v [] hwf
    (by simp only [List.length_append, List.length_nil]; omega)
  rw [List.append_nil] at h
  simp only [goDecode, pnDecode]
  rw [if_neg (by omega), h]


/-- Host-side Go target types of `unmarshal` (marshal.go): the pointer cases of
the type switch (`*bool`, `*int8`, …, `*AnnotationKey`, `*interface{}`,
`*Described`), plus the reflected pointer-to-map and pointer-to-slice cases. -/
inductive GoType where
  | tBool | tInt8 | tInt16 | tInt32 | tInt64
  | tUInt8 | tUInt16 | tUInt32 | tUInt64
  | tFloat32 | tFloat64 | tChar
  | tString | tBytes | tBinary | tSymbol
  | tTime | tUUID | tAnnKey | tDescribed | tIface
  | tMap
  | tSlice (elem : GoType)
deriving DecidableEq

/-- `getArrayStore` (marshal.go): whether an ARRAY element tag is one of the
simple types for which a dedicated Go slice (`[]bool` … `[]UUID`) exists. -/
def isElemTag : ATag → Bool
  | .bool | .ubyte | .byte | .ushort | .short | .uint | .int | .char
  | .ulong | .long | .float | .double | .binary | .string | .symbol
  | .timestamp | .uuid => true
  | _ => false

/-- The Go element type of the slice `getArrayStore` allocates for a simple
ARRAY element tag (`PN_BOOL → []bool`, …, `PN_UUID → []UUID`). -/
def canonG : ATag → GoType
  | .bool => .tBool
  | .ubyte => .tUInt8
  | .byte => .tInt8
  | .ushort => .tUInt16
  | .short => .tInt16
  | .uint => .tUInt32
  | .int => .tInt32
  | .char => .tChar
  | .ulong => .tUInt64
  | .long => .tInt64
  | .float => .tFloat32
  | .double => .tFloat64
  | .binary => .tBinary
  | .string => .tString
  | .symbol => .tSymbol
  | .timestamp => .tTime
  | .uuid => .tUUID
  | _ => .tIface

/-- The AMQP tag `marshal` gives a zero value of a Go element type (the
`pnType := marshal(reflect.Zero(t), nil)` probe in the slice case). -/
def tagOfT : GoType → ATag
  | .tBool => .bool
  | .tUInt8 => .ubyte
  | .tInt8 => .byte
  | .tUInt16 => .ushort
  | .tInt16 => .short
  | .tUInt32 => .uint
  | .tInt32 => .int
  | .tChar => .char
  | .tUInt64 => .ulong
  | .tInt64 => .long
  | .tFloat32 => .float
  | .tFloat64 => .double
  | .tBinary => .binary
  | .tString => .string
  | .tSymbol => .symbol
  | .tTime => .timestamp
  | .tUUID => .uuid
  | _ => .invalid

/-- Host Go values admitted by the `Marshal` type switch (marshal.go):
machine integers carried as unbounded `Int`/`Nat` (their machine ranges are
imposed by well-formedness), floats by their IEEE bit patterns, `time.Time`
by its `UnixNano` count, strings/symbols/binaries by their bytes, a Go map as
its key/value association list in iteration order, `[]interface{}` as a LIST,
a non-interface slice `[]T` as an ARRAY with the element tag of `T`, and
`vArrayG` the generic `amqp.Array` container produced for complex-element
arrays. -/
inductive GoValue where
  | vNil
  | vBool (b : Bool)
  | vInt8 (i : Int)
  | vInt16 (i : Int)
  | vInt32 (i : Int)
  | vInt64 (i : Int)
  | vUInt8 (n : Nat)
  | vUInt16 (n : Nat)
  | vUInt32 (n : Nat)
  | vUInt64 (n : Nat)
  | vFloat32 (bits : Nat)
  | vFloat64 (bits : Nat)
  | vChar (n : Nat)
  | vString (bs : List Nat)
  | vBytes (bs : List Nat)
  | vBinary (bs : List Nat)
  | vSymbol (bs : List Nat)
  | vTime (ns : Int)
  | vUUID (bs : List Nat)
  | vDescribed (d v : GoValue)
  | vMap (kvs : List (GoValue × GoValue))
  | vList (xs : List GoValue)
  | vArray (et : ATag) (xs : List GoValue)
  | vArrayG (xs : List GoValue)

/-- The natural unmarshal target type of a host value: the pointer to the
value's own Go type. -/
def gtypeOf : GoValue → GoType
  | .vNil => .tIface
  | .vBool _ => .tBool
  | .vInt8 _ => .tInt8
  | .vInt16 _ => .tInt16
  | .vInt32 _ => .tInt32
  | .vInt64 _ => .tInt64
  | .vUInt8 _ => .tUInt8
  | .vUInt16 _ => .tUInt16
  | .vUInt32 _ => .tUInt32
  | .vUInt64 _ => .tUInt64
  | .vFloat32 _ => .tFloat32
  | .vFloat64 _ => .tFloat64
  | .vChar _ => .tChar
  | .vString _ => .tString
  | .vBytes _ => .tBytes
  | .vBinary _ => .tBinary
  | .vSymbol _ => .tSymbol
  | .vTime _ => .tTime
  | .vUUID _ => .tUUID
  | .vDescribed _ _ => .tDescribed
  | .vMap _ => .tMap
  | .vList _ => .tSlice .tIface
  | .vArray et _ => .tSlice (canonG et)
  | .vArrayG _ => .tIface

mutual
/-- The host-to-AMQP mapping of `marshal` (marshal.go): the value put on the
`pn_data_t` for each Go type of the type switch.  `time.Time` is put as
`pn_timestamp_t(v.UnixNano()/1000)` (Go integer division truncates toward
zero), a map puts its key/value pairs inside a MAP node, `[]interface{}`
puts a LIST, and a non-interface slice puts an ARRAY with the element
constructor probed from the zero element. -/
def goMarshal : GoValue → AVal
  | .vNil => .anull
  | .vBool b => .abool b
  | .vInt8 i => .abyte i
  | .vInt16 i => .ashort i
  | .vInt32 i => .aint i
  | .vInt64 i => .along i
  | .vUInt8 n => .aubyte n
  | .vUInt16 n => .aushort n
  | .vUInt32 n => .auint n
  | .vUInt64 n => .aulong n
  | .vFloat32 b => .afloat b
  | .vFloat64 b => .adouble b
  | .vChar n => .achar n
  | .vString bs => .astring bs
  | .vBytes bs => .abinary bs
  | .vBinary bs => .abinary bs
  | .vSymbol bs => .asymbol bs
  | .vTime ns => .atimestamp (ns.tdiv 1000)
  | .vUUID bs => .auuid bs
  | .vDescribed d v => .adescribed (goMarshal d) (goMarshal v)
  | .vMap kvs => .amap (goMarshalPairs kvs)
  | .vList xs => .alist (goMarshalList xs)
  | .vArray et xs => .aarray et (goMarshalList xs)
  | .vArrayG xs => .alist (goMarshalList xs)

/-- Children of a marshalled LIST or ARRAY in order. -/
def goMarshalList : List GoValue → List AVal
  | [] => []
  | x :: xs => goMarshal x :: goMarshalList xs

/-- The alternating key/value children of a marshalled MAP. -/
def goMarshalPairs : List (GoValue × GoValue) → List AVal
  | [] => []
  | (k, v) :: rest => goMarshal k :: goMarshal v :: goMarshalPairs rest
end

mutual
/-- Canonical-representation well-formedness of a host value for the
round-trip statement: every subvalue in an interface position is of the Go
type `getInterface` chooses for its AMQP tag (`[]byte` excluded in favour of
`Binary`, `time.Time` restricted to the microsecond grid the codec
preserves), and every ARRAY has a simple element tag with all elements of
the corresponding Go element type. -/
def wfg : GoValue → Bool
  | .vNil => true
  | .vBool _ => true
  | .vInt8 _ => true
  | .vInt16 _ => true
  | .vInt32 _ => true
  | .vInt64 _ => true
  | .vUInt8 _ => true
  | .vUInt16 _ => true
  | .vUInt32 _ => true
  | .vUInt64 _ => true
  | .vFloat32 _ => true
  | .vFloat64 _ => true
  | .vChar _ => true
  | .vString _ => true
  | .vBytes _ => false
  | .vBinary _ => true
  | .vSymbol _ => true
  | .vTime ns => decide (ns.tmod 1000 = 0)
  | .vUUID _ => true
  | .vDescribed d v => wfg d && wfg v
  | .vMap kvs => wfgPairs kvs
  | .vList xs => wfgList xs
  | .vArray et xs => isElemTag et && wfgSameT (canonG et) xs
  | .vArrayG _ => false

/-- Well-formedness of every element of a list of host values. -/
def wfgList : List GoValue → Bool
  | [] => true
  | x :: xs => wfg x && wfgList xs

/-- Well-formedness of every key and value of a host map. -/
def wfgPairs : List (GoValue × GoValue) → Bool
  | [] => true
  | (k, v) :: rest => wfg k && wfg v && wfgPairs rest

/-- Well-formedness of ARRAY elements: each of the declared Go element type. -/
def wfgSameT (t : GoType) : List GoValue → Bool
  | [] => true
  | x :: xs => (gtypeOf x == t) && wfg x && wfgSameT t xs
end

/-- Modelled from the spec: the printable name of an AMQP type tag carried in
an unmarshal error (the spec requires the error to identify the AMQP tag;
the Go `pn_type_t.String()` rendering lives outside this repository's staged
sources). -/
def pnTypeName : ATag → String
  | .null => "PN_NULL"
  | .bool => "PN_BOOL"
  | .ubyte => "PN_UBYTE"
  | .byte => "PN_BYTE"
  | .ushort => "PN_USHORT"
  | .short => "PN_SHORT"
  | .uint => "PN_UINT"
  | .int => "PN_INT"
  | .char => "PN_CHAR"
  | .ulong => "PN_ULONG"
  | .long => "PN_LONG"
  | .timestamp => "PN_TIMESTAMP"
  | .float => "PN_FLOAT"
  | .double => "PN_DOUBLE"
  | .uuid => "PN_UUID"
  | .binary => "PN_BINARY"
  | .string => "PN_STRING"
  | .symbol => "PN_SYMBOL"
  | .described => "PN_DESCRIBED"
  | .array => "PN_ARRAY"
  | .list => "PN_LIST"
  | .map => "PN_MAP"
  | .invalid => "PN_INVALID"

/-- The Go reflect rendering of the pointee type of each target (what `%s` on
`reflect.TypeOf(v).Elem()` prints for the pointer targets of the switch). -/
def goElemName : GoType → String
  | .tBool => "bool"
  | .tInt8 => "int8"
  | .tInt16 => "int16"
  | .tInt32 => "int32"
  | .tInt64 => "int64"
  | .tUInt8 => "uint8"
  | .tUInt16 => "uint16"
  | .tUInt32 => "uint32"
  | .tUInt64 => "uint64"
  | .tFloat32 => "float32"
  | .tFloat64 => "float64"
  | .tChar => "amqp.Char"
  | .tString => "string"
  | .tBytes => "[]uint8"
  | .tBinary => "amqp.Binary"
  | .tSymbol => "amqp.Symbol"
  | .tTime => "time.Time"
  | .tUUID => "amqp.UUID"
  | .tAnnKey => "amqp.AnnotationKey"
  | .tDescribed => "amqp.Described"
  | .tIface => "interface {}"
  | .tMap => "amqp.Map"
  | .tSlice e => "[]" ++ goElemName e

/-- The Go reflect rendering of a pointer target type. -/
def goTypeName (t : GoType) : String := "*" ++ goElemName t

/-- `UnmarshalError` (marshal.go): the AMQP type name, the Go type name, and
the formatted message. -/
structure UErr where
  amqpType : String
  goType : String
  s : String
deriving DecidableEq

/-- `newUnmarshalErrorMsg` (marshal.go): prefixes a non-empty message with
": ", then formats "cannot unmarshal to type %s, not a pointer%s" when the
target is not a pointer and "cannot unmarshal AMQP %s to %s%s" otherwise. -/
def newUnmarshalErrorMsg (t : ATag) (goTy : String) (isPtr : Bool) (msg : String) : UErr :=
  let m := if msg.length > 0 && !(":".isPrefixOf msg) then ": " ++ msg else msg
  if isPtr then
    { amqpType := pnTypeName t, goType := goTy,
      s := "cannot unmarshal AMQP " ++ pnTypeName t ++ " to " ++ goTy ++ m }
  else
    { amqpType := pnTypeName t, goType := goTy,
      s := "cannot unmarshal to type " ++ goTy ++ ", not a pointer" ++ m }

/-- `newUnmarshalError` (marshal.go): `newUnmarshalErrorMsg` with no message. -/
def newUnmarshalError (t : ATag) (goTy : String) (isPtr : Bool) : UErr :=
  newUnmarshalErrorMsg t goTy isPtr ""

/-- The error `unmarshal` raises for a pointer target that rejects the tag. -/
def unmErr (t : GoType) (a : AVal) : UErr :=
  newUnmarshalError (tagOf a) (goTypeName t) true

/-- Exact IEEE-754 widening of a binary32 bit pattern to binary64 (the Go
conversion `float64(x)` for `float32` x, on bit patterns): sign copied,
normal exponents rebased 127 → 1023 with the 23-bit significand shifted to
52 bits, subnormals renormalized, infinities and NaNs mapped to the maximal
exponent with the payload shifted. -/
def f32to64 (b : Nat) : Nat :=
  let s := b / 2 ^ 31 % 2
  let e := b / 2 ^ 23 % 256
  let m := b % 2 ^ 23
  if e = 255 then s * 2 ^ 63 + 2047 * 2 ^ 52 + m * 2 ^ 29
  else if e = 0 then
    if m = 0 then s * 2 ^ 63
    else
      let t := Nat.log2 m
      s * 2 ^ 63 + (874 + t) * 2 ^ 52 + (m - 2 ^ t) * 2 ^ (52 - t)
  else s * 2 ^ 63 + (e + 896) * 2 ^ 52 + m * 2 ^ 29

mutual
/-- `unmarshal` (marshal.go) as a function from the target Go type and the
decoded AMQP value to the written host value or the raised `UnmarshalError`.
The interface target is handled first (`getInterface` semantics inlined, see
`getInterface` below); any other target strips DESCRIBED wrappers first
(`getDescribed` with a nil `*Described`, which skips the descriptor and
unmarshals the value); then the type-switch rows apply, with the reflected
map target leaving the map empty for any non-MAP tag (`getMap`'s silent
`default:`), the reflected slice targets accepting LIST and ARRAY
(`getSequence`), and everything else raising `newUnmarshalError`.  The
`amqp.Array` container built by `getArrayStore` for complex element tags is
modelled from the spec (its Go definition is outside the staged sources) as
a generic sequence with interface elements. -/
def unmarshalAs (t : GoType) (a : AVal) : Except UErr GoValue :=
  match t, a with
  | .tIface, .anull => .ok .vNil
  | .tIface, .abool b => .ok (.vBool b)
  | .tIface, .aubyte n => .ok (.vUInt8 n)
  | .tIface, .abyte i => .ok (.vInt8 i)
  | .tIface, .aushort n => .ok (.vUInt16 n)
  | .tIface, .ashort i => .ok (.vInt16 i)
  | .tIface, .auint n => .ok (.vUInt32 n)
  | .tIface, .aint i => .ok (.vInt32 i)
  | .tIface, .achar n => .ok (.vChar n)
  | .tIface, .aulong n => .ok (.vUInt64 n)
  | .tIface, .along i => .ok (.vInt64 i)
  | .tIface, .afloat b => .ok (.vFloat32 b)
  | .tIface, .adouble b => .ok (.vFloat64 b)
  | .tIface, .abinary bs => .ok (.vBinary bs)
  | .tIface, .astring bs => .ok (.vString bs)
  | .tIface, .asymbol bs => .ok (.vSymbol bs)
  | .tIface, .atimestamp m => .ok (.vTime (m * 1000))
  | .tIface, .auuid bs => .ok (.vUUID bs)
  | .tIface, .amap kvs => do
      let ps ← unmPairs kvs
      .ok (.vMap ps)
  | .tIface, .alist xs => do
      let ys ← unmSeq .tIface xs
      .ok (.vList ys)
  | .tIface, .aarray et xs =>
      if isElemTag et then do
        let ys ← unmSeq (canonG et) xs
        .ok (.vArray et ys)
      else do
        let ys ← unmSeq .tIface xs
        .ok (.vArrayG ys)
  | .tIface, .adescribed d v => do
      let dd ← unmarshalAs .tIface d
      let vv ← unmarshalAs .tIface v
      .ok (.vDescribed dd vv)
  | .tDescribed, .adescribed d v => do
      let dd ← unmarshalAs .tIface d
      let vv ← unmarshalAs .tIface v
      .ok (.vDescribed dd vv)
  | t, .adescribed _ v => unmarshalAs t v
  | .tBool, .abool b => .ok (.vBool b)
  | .tInt8, .abyte i => .ok (.vInt8 i)
  | .tUInt8, .aubyte n => .ok (.vUInt8 n)
  | .tInt16, .abyte i => .ok (.vInt16 i)
  | .tInt16, .ashort i => .ok (.vInt16 i)
  | .tUInt16, .aubyte n => .ok (.vUInt16 n)
  | .tUInt16, .aushort n => .ok (.vUInt16 n)
  | .tInt32, .achar n => .ok (.vInt32 (tcInt 4 n))
  | .tInt32, .abyte i => .ok (.vInt32 i)
  | .tInt32, .ashort i => .ok (.vInt32 i)
  | .tInt32, .aint i => .ok (.vInt32 i)
  | .tUInt32, .achar n => .ok (.vUInt32 n)
  | .tUInt32, .aubyte n => .ok (.vUInt32 n)
  | .tUInt32, .aushort n => .ok (.vUInt32 n)
  | .tUInt32, .auint n => .ok (.vUInt32 n)
  | .tInt64, .achar n => .ok (.vInt64 n)
  | .tInt64, .abyte i => .ok (.vInt64 i)
  | .tInt64, .ashort i => .ok (.vInt64 i)
  | .tInt64, .aint i => .ok (.vInt64 i)
  | .tInt64, .along i => .ok (.vInt64 i)
  | .tUInt64, .achar n => .ok (.vUInt64 n)
  | .tUInt64, .aubyte n => .ok (.vUInt64 n)
  | .tUInt64, .aushort n => .ok (.vUInt64 n)
  | .tUInt64, .aulong n => .ok (.vUInt64 n)
  | .tChar, .achar n => .ok (.vChar n)
  | .tFloat32, .afloat b => .ok (.vFloat32 b)
  | .tFloat64, .afloat b => .ok (.vFloat64 (f32to64 b))
  | .tFloat64, .adouble b => .ok (.vFloat64 b)
  | .tString, .astring bs => .ok (.vString bs)
  | .tString, .asymbol bs => .ok (.vString bs)
  | .tString, .abinary bs => .ok (.vString bs)
  | .tBytes, .astring bs => .ok (.vBytes bs)
  | .tBytes, .asymbol bs => .ok (.vBytes bs)
  | .tBytes, .abinary bs => .ok (.vBytes bs)
  | .tBinary, .abinary bs => .ok (.vBinary bs)
  | .tSymbol, .asymbol bs => .ok (.vSymbol bs)
  | .tTime, .atimestamp m => .ok (.vTime (m * 1000))
  | .tUUID, .auuid bs => .ok (.vUUID bs)
  | .tAnnKey, .aulong n => .ok (.vUInt64 n)
  | .tAnnKey, .asymbol bs => .ok (.vSymbol bs)
  | .tAnnKey, .astring bs => .ok (.vString bs)
  | .tMap, .amap kvs => do
      let ps ← unmPairs kvs
      .ok (.vMap ps)
  | .tMap, _ => .ok (.vMap [])
  | .tSlice .tIface, .alist xs => do
      let ys ← unmSeq .tIface xs
      .ok (.vList ys)
  | .tSlice .tIface, .aarray _ xs => do
      let ys ← unmSeq .tIface xs
      .ok (.vList ys)
  | .tSlice te, .alist xs => do
      let ys ← unmSeq te xs
      .ok (.vArray (tagOfT te) ys)
  | .tSlice te, .aarray _ xs => do
      let ys ← unmSeq te xs
      .ok (.vArray (tagOfT te) ys)
  | t, a => .error (unmErr t a)

/-- Elements of a LIST or ARRAY unmarshalled in order at one element target
(`getSequence`'s loop). -/
def unmSeq (t : GoType) (xs : List AVal) : Except UErr (List GoValue) :=
  match xs with
  | [] => .ok []
  | x :: rest => do
      let y ← unmarshalAs t x
      let ys ← unmSeq t rest
      .ok (y :: ys)

/-- Key/value pairs of a MAP unmarshalled at interface targets (`getMap`'s
loop runs `count/2` times, so a trailing odd child is ignored). -/
def unmPairs (xs : List AVal) : Except UErr (List (GoValue × GoValue)) :=
  match xs with
  | [] => .ok []
  | [_] => .ok []
  | k :: v :: rest => do
      let kk ← unmarshalAs .tIface k
      let vv ← unmarshalAs .tIface v
      let ps ← unmPairs rest
      .ok ((kk, vv) :: ps)
end

/-- `getInterface` (marshal.go): unmarshal into an `interface{}` target. -/
def getInterface (a : AVal) : Except UErr GoValue := unmarshalAs .tIface a

/-- A top-level `Unmarshal` target: a recognized pointer target, or any
non-pointer Go value together with its reflect type name. -/
inductive GoTarget where
  | ptr (t : GoType)
  | nonPtr (name : String)

/-- The error `unmarshal` raises for a non-pointer target: DESCRIBED wrappers
are stripped first (`getDescribed` with nil `*Described` recurses into the
value), then the reflect `default:` case raises `newUnmarshalError` with the
tag under the cursor. -/
def unmarshalNP (name : String) : AVal → UErr
  | .adescribed _ v => unmarshalNP name v
  | a => newUnmarshalError (tagOf a) name false

/-- One `unmarshal` call on a decoded value: pointer targets dispatch the
type switch, non-pointer targets always error. -/
def unmarshalTop : GoTarget → AVal → Except UErr GoValue
  | .ptr t, a => unmarshalAs t a
  | .nonPtr name, a => .error (unmarshalNP name a)

/-- Result of `Unmarshal` (marshal.go): bytes consumed with the written host
value, a raised `UnmarshalError`, a parse error from `decode`, or the
"not enough data" error when `decode` consumed 0 bytes. -/
inductive URes where
  | ok (n : Nat) (v : GoValue)
  | err (e : UErr)
  | parseErr (e : PErr)
  | needMore

/-- `Unmarshal` (marshal.go): `decode` the bytes, error out on a parse error
or incomplete input, otherwise `unmarshal` into the target. -/
def Unmarshal (bs : List Nat) (tgt : GoTarget) : URes :=
  match goDecode bs with
  | .errParse e => .parseErr e
  | .incomplete => .needMore
  | .ok a n =>
    match unmarshalTop tgt a with
    | .ok v => .ok n v
    | .error e => .err e

/-- The acceptance table of the `unmarshal` type switch for the scalar
pointer targets: which AMQP tags each target reads without error. -/
def accepts : GoType → ATag → Bool
  | .tBool, .bool => true
  | .tInt8, .byte => true
  | .tUInt8, .ubyte => true
  | .tInt16, t => t == .byte || t == .short
  | .tUInt16, t => t == .ubyte || t == .ushort
  | .tInt32, t => t == .char || t == .byte || t == .short || t == .int
  | .tUInt32, t => t == .char || t == .ubyte || t == .ushort || t == .uint
  | .tInt64, t => t == .char || t == .byte || t == .short || t == .int || t == .long
  | .tUInt64, t => t == .char || t == .ubyte || t == .ushort || t == .ulong
  | .tChar, .char => true
  | .tFloat32, .float => true
  | .tFloat64, t => t == .float || t == .double
  | .tString, t => t == .string || t == .symbol || t == .binary
  | .tBytes, t => t == .string || t == .symbol || t == .binary
  | .tBinary, .binary => true
  | .tSymbol, .symbol => true
  | .tTime, .timestamp => true
  | .tUUID, .uuid => true
  | .tAnnKey, t => t == .ulong || t == .symbol || t == .string
  | _, _ => false

/-- The C++ `annotation_key` assignment overloads (annotation_key.hpp):
`uint64_t`, `amqp_symbol`, `std::string` and `const char*`. -/
inductive AnnKeyAsgn where
  | fromUlong (n : Nat)
  | fromSymbol (bs : List Nat)
  | fromString (bs : List Nat)
  | fromCStr (bs : List Nat)

/-- The AMQP tag of `scalar_` after `annotation_key::operator=`: `uint64_t`
stores a ULONG, `amqp_symbol` stores a SYMBOL, and both raw text overloads
convert through `amqp_symbol`. -/
def annKeyAssignTag : AnnKeyAsgn → ATag
  | .fromUlong _ => .ulong
  | .fromSymbol _ => .symbol
  | .fromString _ => .symbol
  | .fromCStr _ => .symbol

/-- `minEncode` (marshal.go). -/
def minEncode : Nat := 256

/-- The successive buffer lengths `encodeGrow` (marshal.go) passes to the
encoder, given the current buffer length and the encoded size `E`: the
buffer is replaced by one of twice its length after every overflow, and the
first length `≥ E` succeeds and ends the loop.  Fuelled (the loop at most
doubles 64 times for any encodable size). -/
def growSizes : Nat → Nat → Nat → List Nat
  | 0, _, _ => []
  | fu + 1, sz, E => if E ≤ sz then [sz] else sz :: growSizes fu (2 * sz) E

/-- The buffer lengths `Marshal` (marshal.go) tries for a caller buffer of
length `bufLen` and encoded size `E`: a nil or empty buffer is replaced by a
fresh `minEncode`-byte one, then `encodeGrow` doubles on overflow. -/
def marshalSizes (bufLen E : Nat) : List Nat :=
  growSizes 64 (if bufLen = 0 then minEncode else bufLen) E

/-- The length of the buffer `Marshal` returns: `encode` returns `buf[:n]`
with `n` the encoded byte count. -/
def marshalRetLen (v : GoValue) : Nat := (encodeA (goMarshal v)).length

/-- One map section of a C++ `message` (message.cpp): the host-side map
member and the backing `pn_data_t` subtree.  The subtree is `none` when the
`pn_data_t` is empty; `some w` holds the decoded content of its map node
(`some []` is a non-empty subtree encoding an empty map). -/
structure Sect where
  hmap : List (Nat × Nat)
  wire : Option (List (Nat × Nat))
deriving DecidableEq

/-- `get_map` (message.cpp): when the host map is empty and the subtree is
not, decode the subtree into the map and clear the subtree; otherwise leave
the section unchanged. -/
def get_map (s : Sect) : Sect :=
  if s.hmap = [] ∧ s.wire ≠ none then { hmap := s.wire.getD [], wire := none } else s

/-- `put_map` (message.cpp): when the subtree is empty and the host map is
not, encode the map into the subtree and clear the map; otherwise leave the
section unchanged. -/
def put_map (s : Sect) : Sect :=
  if s.wire = none ∧ s.hmap ≠ [] then { hmap := [], wire := some s.hmap } else s

/-- The three map sections of a C++ `message`. -/
structure MsgState where
  props : Sect
  anns : Sect
  instrs : Sect
deriving DecidableEq

/-- A fresh message: all sections empty on both sides. -/
def msgInit : MsgState := ⟨⟨[], none⟩, ⟨[], none⟩, ⟨[], none⟩⟩

/-- Updates one section of a message. -/
def setSect (st : MsgState) (i : Fin 3) (s : Sect) : MsgState :=
  match i with
  | 0 => { st with props := s }
  | 1 => { st with anns := s }
  | 2 => { st with instrs := s }

/-- Reads one section of a message. -/
def getSect (st : MsgState) (i : Fin 3) : Sect :=
  match i with
  | 0 => st.props
  | 1 => st.anns
  | 2 => st.instrs

/-- The observable message operations of message.cpp: an accessor read
(`properties()`, `annotations()`, `instructions()`, each running `get_map`),
a host-map write through an accessor (the accessor runs `get_map`, then the
caller assigns the returned map reference), `encode` (the put-phase
transition on all three sections), `decode` (clears the three host maps and
installs the wire content of the decoded bytes), and `clear`
(`pn_message_clear`, which clears the `pn_data_t` sections and does not
touch the host maps). -/
inductive MsgOp where
  | access (i : Fin 3)
  | write (i : Fin 3) (m : List (Nat × Nat))
  | encodeOp
  | decodeOp (w0 w1 w2 : Option (List (Nat × Nat)))
  | clearOp

/-- One step of the message model. -/
def msgStep (st : MsgState) : MsgOp → MsgState
  | .access i => setSect st i (get_map (getSect st i))
  | .write i m => setSect st i { get_map (getSect st i) with hmap := m }
  | .encodeOp => ⟨put_map st.props, put_map st.anns, put_map st.instrs⟩
  | .decodeOp w0 w1 w2 => ⟨⟨[], w0⟩, ⟨[], w1⟩, ⟨[], w2⟩⟩
  | .clearOp => ⟨⟨st.props.hmap, none⟩, ⟨st.anns.hmap, none⟩, ⟨st.instrs.hmap, none⟩⟩

/-- Runs a sequence of message operations from a fresh message. -/
def msgRun (ops : List MsgOp) : MsgState := ops.foldl msgStep msgInit

/-- The cache invariant of one section: at most one of the host map and the
wire subtree is non-empty. -/
def SectInv (s : Sect) : Bool := decide (s.hmap = []) || decide (s.wire = none)

/-- The buffer sizes `message::encode` (message.cpp) tries: `sz` starts at
the string's capacity, raised to 512 when smaller, and doubles after every
`PN_OVERFLOW` until `pn_message_encode` succeeds at encoded size `E`. -/
def msgEncodeSizes (cap E : Nat) : List Nat :=
  growSizes 64 (if cap < 512 then 512 else cap) E


/-- The Go element types a simple ARRAY can store (the slices of
`getArrayStore`). -/
def isElemT : GoType → Bool
  | .tBool | .tInt8 | .tInt16 | .tInt32 | .tInt64
  | .tUInt8 | .tUInt16 | .tUInt32 | .tUInt64
  | .tFloat32 | .tFloat64 | .tChar
  | .tString | .tBinary | .tSymbol | .tTime | .tUUID => true
  | _ => false

mutual
/-- Structural size of a host value (for fuelled induction). -/
def gsize : GoValue → Nat
  | .vDescribed d v => gsize d + gsize v + 1
  | .vMap kvs => gsizeP kvs + 1
  | .vList xs => gsizeL xs + 1
  | .vArray _ xs => gsizeL xs + 1
  | .vArrayG xs => gsizeL xs + 1
  | _ => 1

/-- Structural size of a list of host values. -/
def gsizeL : List GoValue → Nat
  | [] => 0
  | x :: xs => gsize x + gsizeL xs + 1

/-- Structural size of a list of host key/value pairs. -/
def gsizeP : List (GoValue × GoValue) → Nat
  | [] => 0
  | (k, v) :: rest => gsize k + gsize v + gsizeP rest + 1
end

theorem tagOfT_canonG (et : ATag) (h : isElemTag et = true) : tagOfT (canonG et) = et := by
  cases et <;> simp_all [isElemTag, canonG, tagOfT]

theorem isElemT_canonG (et : ATag) (h : isElemTag et = true) : isElemT (canonG et) = true := by
  cases et <;> simp_all [isElemTag, canonG, isElemT]

theorem tdiv_thousand (ns : Int) (h : ns.tmod 1000 = 0) : ns.tdiv 1000 * 1000 = ns := by
  have h2 := Int.tdiv_add_tmod ns 1000
  omega

/-- Interface-target reads of a scalar at its own typed target. -/
theorem unm_scalar (v : GoValue) (h : wfg v = true) (he : isElemT (gtypeOf v) = true) :
    unmarshalAs (gtypeOf v) (goMarshal v) = .ok v := by
  cases v with
  | vBool b => rfl
  | vInt8 i => rfl
  | vInt16 i => rfl
  | vInt32 i => rfl
  | vInt64 i => rfl
  | vUInt8 n => rfl
  | vUInt16 n => rfl
  | vUInt32 n => rfl
  | vUInt64 n => rfl
  | vFloat32 b => rfl
  | vFloat64 b => rfl
  | vChar n => rfl
  | vString bs => rfl
  | vBinary bs => rfl
  | vSymbol bs => rfl
  | vUUID bs => rfl
  | vTime ns =>
    simp only [wfg, decide_eq_true_eq] at h
    show Except.ok (GoValue.vTime (ns.tdiv 1000 * 1000)) = Except.ok (GoValue.vTime ns)
    rw [tdiv_thousand ns h]
  | vNil => simp [gtypeOf, isElemT] at he
  | vBytes bs => simp [wfg] at h
  | vDescribed d b => simp [gtypeOf, isElemT] at he
  | vMap kvs => simp [gtypeOf, isElemT] at he
  | vList xs => simp [gtypeOf, isElemT] at he
  | vArray et xs => simp [gtypeOf, isElemT] at he
  | vArrayG xs => simp [wfg] at h

/-- Typed sequence round trip for simple ARRAY elements. -/
theorem unm_seqT (t : GoType) (xs : List GoValue) (he : isElemT t = true)
    (h : wfgSameT t xs = true) : unmSeq t (goMarshalList xs) = .ok xs := by
  induction xs with
  | nil => rfl
  | cons x rest ih =>
    simp only [wfgSameT, Bool.and_eq_true, beq_iff_eq] at h
    obtain ⟨⟨ht, hx⟩, hrest⟩ := h
    rw [goMarshalList, unmSeq]
    rw [show unmarshalAs t (goMarshal x) = .ok x from ht ▸ unm_scalar x hx (ht ▸ he)]
    rw [ih hrest]
    rfl

/-- Round trip through an interface target, fuelled by structural size: a
canonical host value marshals to an AMQP value that `getInterface` maps back
to the same host value, and likewise for sequence elements and map pairs. -/
theorem unm_iface_all : ∀ (n : Nat),
    (∀ v : GoValue, gsize v < n → wfg v = true →
      unmarshalAs .tIface (goMarshal v) = .ok v) ∧
    (∀ xs : List GoValue, gsizeL xs < n → wfgList xs = true →
      unmSeq .tIface (goMarshalList xs) = .ok xs) ∧
    (∀ ps : List (GoValue × GoValue), gsizeP ps < n → wfgPairs ps = true →
      unmPairs (goMarshalPairs ps) = .ok ps) := by
  intro n
  induction n with
  | zero =>
    exact ⟨fun v hv _ => absurd hv (Nat.not_lt_zero _),
      fun xs hx _ => absurd hx (Nat.not_lt_zero _),
      fun ps hp _ => absurd hp (Nat.not_lt_zero _)⟩
  | succ n ih =>
    obtain ⟨IH1, IH2, IH3⟩ := ih
    refine ⟨?_, ?_, ?_⟩
    · intro v hv hwf
      cases v with
      | vNil => rfl
      | vBool b => rfl
      | vInt8 i => rfl
      | vInt16 i => rfl
      | vInt32 i => rfl
      | vInt64 i => rfl
      | vUInt8 m => rfl
      | vUInt16 m => rfl
      | vUInt32 m => rfl
      | vUInt64 m => rfl
      | vFloat32 b => rfl
      | vFloat64 b => rfl
      | vChar m => rfl
      | vString bs => rfl
      | vBinary bs => rfl
      | vSymbol bs => rfl
      | vUUID bs => rfl
      | vTime ns =>
        simp only [wfg, decide_eq_true_eq] at hwf
        show Except.ok (GoValue.vTime (ns.tdiv 1000 * 1000)) =
          Except.ok (GoValue.vTime ns)
        rw [tdiv_thousand ns hwf]
      | vBytes bs => simp [wfg] at hwf
      | vArrayG xs => simp [wfg] at hwf
      | vDescribed d b =>
        simp only [wfg, Bool.and_eq_true] at hwf
        simp only [gsize] at hv
        have hd := IH1 d (by omega) hwf.1
        have hb := IH1 b (by omega) hwf.2
        show (do
          let dd ← unmarshalAs .tIface (goMarshal d)
          let vv ← unmarshalAs .tIface (goMarshal b)
          Except.ok (GoValue.vDescribed dd vv)) = Except.ok (GoValue.vDescribed d b)
        rw [hd, hb]
        rfl
      | vMap kvs =>
        simp only [wfg] at hwf
        simp only [gsize] at hv
        have hp := IH3 kvs (by omega) hwf
        show (do
          let ps ← unmPairs (goMarshalPairs kvs)
          Except.ok (GoValue.vMap ps)) = Except.ok (GoValue.vMap kvs)
        rw [hp]
        rfl
      | vList xs =>
        simp only [wfg] at hwf
        simp only [gsize] at hv
        have hx := IH2 xs (by omega) hwf
        show (do
          let ys ← unmSeq .tIface (goMarshalList xs)
          Except.ok (GoValue.vList ys)) = Except.ok (GoValue.vList xs)
        rw [hx]
        rfl
      | vArray et xs =>
        simp only [wfg, Bool.and_eq_true] at hwf
        obtain ⟨het, hxs⟩ := hwf
        have hs := unm_seqT (canonG et) xs (isElemT_canonG et het) hxs
        show (if isElemTag et then do
            let ys ← unmSeq (canonG et) (goMarshalList xs)
            Except.ok (GoValue.vArray et ys)
          else do
            let ys ← unmSeq .tIface (goMarshalList xs)
            Except.ok (GoValue.vArrayG ys)) = Except.ok (GoValue.vArray et xs)
        rw [if_pos het, hs]
        rfl
    · intro xs hx hwf
      cases xs with
      | nil => rfl
      | cons x rest =>
        simp only [wfgList, Bool.and_eq_true] at hwf
        simp only [gsizeL] at hx
        have h1 := IH1 x (by omega) hwf.1
        have h2 := IH2 rest (by omega) hwf.2
        show (do
          let y ← unmarshalAs .tIface (goMarshal x)
          let ys ← unmSeq .tIface (goMarshalList rest)
          Except.ok (y :: ys)) = Except.ok (x :: rest)
        rw [h1, h2]
        rfl
    · intro ps hp hwf
      cases ps with
      | nil => rfl
      | cons kv rest =>
        obtain ⟨k, v⟩ := kv
        simp only [wfgPairs, Bool.and_eq_true] at hwf
        simp only [gsizeP] at hp
        have hk := IH1 k (by omega) hwf.1.1
        have hv2 := IH1 v (by omega) hwf.1.2
        have hr := IH3 rest (by omega) hwf.2
        show (do
          let kk ← unmarshalAs .tIface (goMarshal k)
          let vv ← unmarshalAs .tIface (goMarshal v)
          let ps2 ← unmPairs (goMarshalPairs rest)
          Except.ok ((kk, vv) :: ps2)) = Except.ok ((k, v) :: rest)
        rw [hk, hv2, hr]
        rfl

theorem unmarshalAs_slice_arr (te : GoType) (hne : te ≠ .tIface) (et : ATag)
    (xs : List AVal) :
    unmarshalAs (.tSlice te) (.aarray et xs) = (do
      let ys ← unmSeq te xs
      Except.ok (GoValue.vArray (tagOfT te) ys)) := by
  cases te <;> first | rfl | exact absurd rfl hne

/-- Round trip of a canonical host value at its own typed target. -/
theorem unm_typed (v : GoValue) (h : wfg v = true) :
    unmarshalAs (gtypeOf v) (goMarshal v) = .ok v := by
  obtain ⟨IH1, IH2, IH3⟩ := unm_iface_all (gsize v + 1)
  cases v with
  | vNil => rfl
  | vBool b => rfl
  | vInt8 i => rfl
  | vInt16 i => rfl
  | vInt32 i => rfl
  | vInt64 i => rfl
  | vUInt8 m => rfl
  | vUInt16 m => rfl
  | vUInt32 m => rfl
  | vUInt64 m => rfl
  | vFloat32 b => rfl
  | vFloat64 b => rfl
  | vChar m => rfl
  | vString bs => rfl
  | vBinary bs => rfl
  | vSymbol bs => rfl
  | vUUID bs => rfl
  | vTime ns =>
    simp only [wfg, decide_eq_true_eq] at h
    show Except.ok (GoValue.vTime (ns.tdiv 1000 * 1000)) = Except.ok (GoValue.vTime ns)
    rw [tdiv_thousand ns h]
  | vBytes bs => simp [wfg] at h
  | vArrayG xs => simp [wfg] at h
  | vDescribed d b =>
    simp only [wfg, Bool.and_eq_true] at h
    have hd := IH1 d (by simp only [gsize]; omega) h.1
    have hb := IH1 b (by simp only [gsize]; omega) h.2
    show (do
      let dd ← unmarshalAs .tIface (goMarshal d)
      let vv ← unmarshalAs .tIface (goMarshal b)
      Except.ok (GoValue.vDescribed dd vv)) = Except.ok (GoValue.vDescribed d b)
    rw [hd, hb]
    rfl
  | vMap kvs =>
    simp only [wfg] at h
    have hp := IH3 kvs (by simp only [gsize]; omega) h
    show (do
      let ps ← unmPairs (goMarshalPairs kvs)
      Except.ok (GoValue.vMap ps)) = Except.ok (GoValue.vMap kvs)
    rw [hp]
    rfl
  | vList xs =>
    simp only [wfg] at h
    have hx := IH2 xs (by simp only [gsize]; omega) h
    show (do
      let ys ← unmSeq .tIface (goMarshalList xs)
      Except.ok (GoValue.vList ys)) = Except.ok (GoValue.vList xs)
    rw [hx]
    rfl
  | vArray et xs =>
    simp only [wfg, Bool.and_eq_true] at h
    obtain ⟨het, hxs⟩ := h
    have hs := unm_seqT (canonG et) xs (isElemT_canonG et het) hxs
    have hne : canonG et ≠ .tIface := by
      cases et <;> simp_all [isElemTag, canonG]
    rw [show gtypeOf (GoValue.vArray et xs) = .tSlice (canonG et) from rfl,
      show goMarshal (GoValue.vArray et xs) = .aarray et (goMarshalList xs) from rfl,
      unmarshalAs_slice_arr (canonG et) hne et (goMarshalList xs), hs,
      tagOfT_canonG et het]
    rfl


theorem growSizes_head (fu sz E : Nat) : (growSizes (fu + 1) sz E).head? = some sz := by
  rw [growSizes]
  split <;> rfl

/-- Closed form of the grow-on-overflow loop: starting from a positive size
with enough fuel, the attempted sizes are `sz, 2·sz, 4·sz, …` up to the
first power-of-two multiple that fits `E`; every earlier attempt overflows. -/
theorem growSizes_form : ∀ (fu sz E : Nat), 0 < sz → E ≤ sz * 2 ^ fu →
    ∃ k, k ≤ fu ∧
      growSizes (fu + 1) sz E = (List.range (k + 1)).map (fun i => sz * 2 ^ i) ∧
      (∀ i, i < k → sz * 2 ^ i < E) ∧ E ≤ sz * 2 ^ k := by
  intro fu
  induction fu with
  | zero =>
    intro sz E hsz hE
    simp only [pow_zero, Nat.mul_one] at hE
    refine ⟨0, Nat.le_refl 0, ?_, fun i hi => absurd hi (by omega), by simpa using hE⟩
    rw [growSizes, if_pos hE, show (List.range 1) = [0] from rfl]
    norm_num
  | succ fu ih =>
    intro sz E hsz hE
    by_cases hfit : E ≤ sz
    · refine ⟨0, by omega, ?_, fun i hi => absurd hi (by omega), by simpa using hfit⟩
      rw [growSizes, if_pos hfit, show (List.range 1) = [0] from rfl]
      norm_num
    · have hE2 : E ≤ 2 * sz * 2 ^ fu := by
        have h3 : 2 * sz * 2 ^ fu = sz * 2 ^ (fu + 1) := by ring
        omega
      obtain ⟨k, hk, hform, hlt, hge⟩ := ih (2 * sz) E (by omega) hE2
      refine ⟨k + 1, by omega, ?_, ?_, ?_⟩
      · rw [growSizes, if_neg hfit, hform]
        conv_rhs => rw [List.range_succ_eq_map, List.map_cons, List.map_map]
        refine congrArg₂ List.cons (by show sz = sz * 2 ^ 0; norm_num) ?_
        refine List.map_congr_left ?_
        intro i _
        show 2 * sz * 2 ^ i = sz * 2 ^ (i + 1)
        ring
      · intro i hi
        cases i with
        | zero => simpa using (by omega : sz < E)
        | succ j =>
          have h4 := hlt j (by omega)
          have h5 : 2 * sz * 2 ^ j = sz * 2 ^ (j + 1) := by ring
          omega
      · have h6 : 2 * sz * 2 ^ k = sz * 2 ^ (k + 1) := by ring
        omega


/-- DESCRIBED wrappers stripped: the node `unmarshal` is left on after
`getDescribed` recursion with a nil `*Described`. -/
def stripDesc : AVal → AVal
  | .adescribed _ v => stripDesc v
  | a => a

theorem unmarshalNP_eq (name : String) :
    ∀ a : AVal, unmarshalNP name a = newUnmarshalError (tagOf (stripDesc a)) name false
  | .adescribed _ v => by
      rw [unmarshalNP, stripDesc]
      exact unmarshalNP_eq name v
  | .anull => rfl
  | .abool _ => rfl
  | .aubyte _ => rfl
  | .abyte _ => rfl
  | .aushort _ => rfl
  | .ashort _ => rfl
  | .auint _ => rfl
  | .aint _ => rfl
  | .achar _ => rfl
  | .aulong _ => rfl
  | .along _ => rfl
  | .atimestamp _ => rfl
  | .afloat _ => rfl
  | .adouble _ => rfl
  | .auuid _ => rfl
  | .abinary _ => rfl
  | .astring _ => rfl
  | .asymbol _ => rfl
  | .alist _ => rfl
  | .amap _ => rfl
  | .aarray _ _ => rfl

/-- The scalar pointer targets of the `unmarshal` type switch (those whose
rejection raises immediately rather than reflecting into map/slice). -/
def scalarTgt : GoType → Bool
  | .tBool | .tInt8 | .tInt16 | .tInt32 | .tInt64
  | .tUInt8 | .tUInt16 | .tUInt32 | .tUInt64
  | .tFloat32 | .tFloat64 | .tChar
  | .tString | .tBytes | .tBinary | .tSymbol
  | .tTime | .tUUID | .tAnnKey | .tDescribed => true
  | _ => false

/-- A scalar target rejecting a (non-DESCRIBED) tag raises exactly
`newUnmarshalError` with that tag and the target's type name. -/
theorem unm_mismatch_scalar (t : GoType) (a : AVal) (hs : scalarTgt t = true)
    (hd : tagOf a ≠ .described) (hacc : accepts t (tagOf a) = false) :
    unmarshalAs t a = .error (unmErr t a) := by
  cases t <;> cases a <;>
    first
      | rfl
      | simp_all [scalarTgt, tagOf, accepts]

/-- A slice target rejects every tag other than LIST and ARRAY (DESCRIBED
apart) with `newUnmarshalError`. -/
theorem unm_mismatch_slice (te : GoType) (a : AVal) (hd : tagOf a ≠ .described)
    (hl : tagOf a ≠ .list) (har : tagOf a ≠ .array) :
    unmarshalAs (.tSlice te) a = .error (unmErr (.tSlice te) a) := by
  cases te <;> cases a <;>
    first
      | rfl
      | simp_all [tagOf]

/-- The cache invariant of the three sections of a message. -/
def MsgInv (st : MsgState) : Bool :=
  SectInv st.props && SectInv st.anns && SectInv st.instrs

theorem get_map_wire (s : Sect) (h : SectInv s = true) : (get_map s).wire = none := by
  simp only [SectInv, Bool.or_eq_true, decide_eq_true_eq] at h
  rw [get_map]
  split
  · rfl
  · rename_i hcond
    rw [not_and_or] at hcond
    rcases h with h | h
    · rcases hcond with hc | hc
      · exact absurd h hc
      · simpa using hc
    · exact h

theorem SectInv_get_map (s : Sect) (h : SectInv s = true) : SectInv (get_map s) = true := by
  simp only [SectInv, Bool.or_eq_true, decide_eq_true_eq]
  right
  exact get_map_wire s h

theorem SectInv_put_map (s : Sect) (h : SectInv s = true) : SectInv (put_map s) = true := by
  simp only [SectInv, Bool.or_eq_true, decide_eq_true_eq] at h ⊢
  rw [put_map]
  split
  · left; rfl
  · rename_i hcond
    rw [not_and_or] at hcond
    rcases hcond with hc | hc
    · rcases h with h | h
      · exact Or.inl h
      · exact absurd h hc
    · left
      simpa using hc

theorem SectInv_write (s : Sect) (m : List (Nat × Nat)) (h : SectInv s = true) :
    SectInv { get_map s with hmap := m } = true := by
  simp only [SectInv, Bool.or_eq_true, decide_eq_true_eq]
  right
  exact get_map_wire s h

theorem MsgInv_step (st : MsgState) (op : MsgOp) (h : MsgInv st = true) :
    MsgInv (msgStep st op) = true := by
  simp only [MsgInv, Bool.and_eq_true] at h
  obtain ⟨⟨h0, h1⟩, h2⟩ := h
  cases op with
  | access i =>
    match i with
    | 0 => simp only [msgStep, setSect, getSect, MsgInv, Bool.and_eq_true]
           exact ⟨⟨SectInv_get_map _ h0, h1⟩, h2⟩
    | 1 => simp only [msgStep, setSect, getSect, MsgInv, Bool.and_eq_true]
           exact ⟨⟨h0, SectInv_get_map _ h1⟩, h2⟩
    | 2 => simp only [msgStep, setSect, getSect, MsgInv, Bool.and_eq_true]
           exact ⟨⟨h0, h1⟩, SectInv_get_map _ h2⟩
  | write i m =>
    match i with
    | 0 => simp only [msgStep, setSect, getSect, MsgInv, Bool.and_eq_true]
           exact ⟨⟨SectInv_write _ m h0, h1⟩, h2⟩
    | 1 => simp only [msgStep, setSect, getSect, MsgInv, Bool.and_eq_true]
           exact ⟨⟨h0, SectInv_write _ m h1⟩, h2⟩
    | 2 => simp only [msgStep, setSect, getSect, MsgInv, Bool.and_eq_true]
           exact ⟨⟨h0, h1⟩, SectInv_write _ m h2⟩
  | encodeOp =>
    simp only [msgStep, MsgInv, Bool.and_eq_true]
    exact ⟨⟨SectInv_put_map _ h0, SectInv_put_map _ h1⟩, SectInv_put_map _ h2⟩
  | decodeOp w0 w1 w2 => rfl
  | clearOp =>
    simp only [msgStep, MsgInv, SectInv]
    simp

theorem msgRun_inv (ops : List MsgOp) : MsgInv (msgRun ops) = true := by
  have hgen : ∀ (l : List MsgOp) (st : MsgState), MsgInv st = true →
      MsgInv (l.foldl msgStep st) = true := by
    intro l
    induction l with
    | nil => intro st h; exact h
    | cons op rest ih =>
      intro st h
      exact ih (msgStep st op) (MsgInv_step st op h)
  exact hgen ops msgInit rfl


/-- C1: the timestamp unit divergence of marshal.go.  `marshal` writes
`pn_timestamp_t(v.UnixNano()/1000)`, i.e. a MICROSECOND count since the Unix
epoch, so for the instant one second after the epoch the TIMESTAMP payload
is 1000000 and not the 1000 milliseconds the claim requires; dually
`unmarshal` computes `time.Unix(0, ts*1000)`, so a payload of 1000 yields
the instant 1000000 nanoseconds (one millisecond, not one second) after the
epoch. -/
theorem C1_timestamp_unit_bug :
    (∀ ns : Int, goMarshal (.vTime ns) = .atimestamp (ns.tdiv 1000)) ∧
    goMarshal (.vTime 1000000000) = .atimestamp 1000000 ∧
    (1000000 : Int) ≠ (1000 : Int) ∧
    unmarshalAs .tTime (.atimestamp 1000) = .ok (.vTime 1000000) :=
  ⟨fun _ => rfl, rfl, by decide, rfl⟩

/-- C6: `decode` (marshal.go) on any strict prefix of a valid complete
encoding reports the incomplete case (`PN_UNDERFLOW` mapped to 0 bytes
consumed and a nil error, with no value surfaced to the caller), and on the
complete encoding succeeds consuming exactly its length. -/
theorem C6_underflow_contract :
    (∀ (v : AVal) (k : Nat), wfa v = true → k < (encodeA v).length →
      goDecode ((encodeA v).take k) = .incomplete) ∧
    (∀ v : AVal, wfa v = true →
      goDecode (encodeA v) = .ok v (encodeA v).length) :=
  ⟨fun v k hwf hk => goDecode_prefix v k hwf hk, fun v hwf => goDecode_complete v hwf⟩

theorem C6_underflow_witness :
    wfa (.astring [104, 105]) = true ∧
    2 < (encodeA (.astring [104, 105])).length ∧
    goDecode ((encodeA (.astring [104, 105])).take 2) = .incomplete ∧
    goDecode (encodeA (.astring [104, 105])) = .ok (.astring [104, 105]) 4 :=
  ⟨rfl, by decide,
    C6_underflow_contract.1 (.astring [104, 105]) 2 rfl (by decide),
    C6_underflow_contract.2 (.astring [104, 105]) rfl⟩

/-- C10: unmarshalling into a non-pointer target always raises the
"not a pointer" `UnmarshalError`, naming the target Go type and the
(described-stripped) AMQP tag under the cursor, and never produces a host
value. -/
theorem C10_nonptr_error (name : String) (a : AVal) :
    unmarshalTop (.nonPtr name) a =
      .error (newUnmarshalError (tagOf (stripDesc a)) name false) ∧
    (newUnmarshalError (tagOf (stripDesc a)) name false).goType = name ∧
    (newUnmarshalError (tagOf (stripDesc a)) name false).s =
      "cannot unmarshal to type " ++ name ++ ", not a pointer" := by
  refine ⟨?_, rfl, ?_⟩
  · show Except.error (unmarshalNP name a) = _
    rw [unmarshalNP_eq]
  · show "cannot unmarshal to type " ++ name ++ ", not a pointer" ++ "" = _
    simp

/-- C3: the lazy map-cache state machine of message.cpp.  After any sequence
of message operations from a fresh message, every section has at most one of
{host map, wire subtree} non-empty; `get_map` on an empty map with a
non-empty subtree decodes the subtree into the map and clears the subtree
(and does nothing when the subtree is empty); `put_map` on a non-empty map
with an empty subtree encodes the map and clears it (and does nothing when
the map is empty); `message::encode` runs the put-phase on all three
sections. -/
theorem C3_map_cache_invariant :
    (∀ ops : List MsgOp, MsgInv (msgRun ops) = true) ∧
    (∀ w, get_map ⟨[], some w⟩ = ⟨w, none⟩) ∧
    (∀ s : Sect, s.wire = none → get_map s = s) ∧
    (∀ m, m ≠ [] → put_map ⟨m, none⟩ = ⟨[], some m⟩) ∧
    (∀ s : Sect, s.hmap = [] → put_map s = s) ∧
    (∀ st : MsgState, msgStep st .encodeOp =
      ⟨put_map st.props, put_map st.anns, put_map st.instrs⟩) := by
  refine ⟨msgRun_inv, fun w => ?_, fun s hs => ?_, fun m hm => ?_, fun s hs => ?_,
    fun st => rfl⟩
  · rw [get_map, if_pos ⟨rfl, by simp⟩]
    rfl
  · rw [get_map, if_neg (by simp [hs])]
  · rw [put_map, if_pos ⟨rfl, hm⟩]
  · rw [put_map, if_neg (by simp [hs])]

theorem C3_map_cache_witness :
    (([(1, 2)] : List (Nat × Nat)) ≠ []) ∧
    put_map ⟨[(1, 2)], none⟩ = ⟨[], some [(1, 2)]⟩ ∧
    get_map ⟨[], some [(1, 2)]⟩ = ⟨[(1, 2)], none⟩ ∧
    MsgInv (msgRun [.decodeOp (some [(1, 2)]) none none, .access 0, .encodeOp]) = true :=
  ⟨by decide,
    C3_map_cache_invariant.2.2.2.1 [(1, 2)] (by decide),
    C3_map_cache_invariant.2.1 [(1, 2)],
    C3_map_cache_invariant.1 [.decodeOp (some [(1, 2)]) none none, .access 0, .encodeOp]⟩

/-- C4 (corrected): the C++ `annotation_key` assignments map `uint64_t` to
ULONG and symbol/string/`char*` to SYMBOL as claimed, but the Go unmarshal
into an `*AnnotationKey` target accepts STRING in addition to ULONG and
SYMBOL, so the acceptance set is not the closed two-tag union the claim
states.  The rejection of every other (non-DESCRIBED) tag raises
`newUnmarshalError`. -/
theorem C4_annkey :
    (∀ (a : AVal), tagOf a ≠ .described → accepts .tAnnKey (tagOf a) = false →
      unmarshalAs .tAnnKey a = .error (unmErr .tAnnKey a)) ∧
    (∀ n, annKeyAssignTag (.fromUlong n) = .ulong) ∧
    (∀ bs, annKeyAssignTag (.fromSymbol bs) = .symbol) ∧
    (∀ bs, annKeyAssignTag (.fromString bs) = .symbol) ∧
    (∀ bs, annKeyAssignTag (.fromCStr bs) = .symbol) ∧
    (∀ n, unmarshalAs .tAnnKey (.aulong n) = .ok (.vUInt64 n)) ∧
    (∀ bs, unmarshalAs .tAnnKey (.asymbol bs) = .ok (.vSymbol bs)) ∧
    (∀ bs, unmarshalAs .tAnnKey (.astring bs) = .ok (.vString bs)) :=
  ⟨fun a hd hacc => unm_mismatch_scalar .tAnnKey a rfl hd hacc,
    fun _ => rfl, fun _ => rfl, fun _ => rfl, fun _ => rfl,
    fun _ => rfl, fun _ => rfl, fun _ => rfl⟩

theorem C4_annkey_cex :
    unmarshalAs .tAnnKey (.astring [97]) = .ok (.vString [97]) ∧
    tagOf (.astring [97]) ≠ .ulong ∧ tagOf (.astring [97]) ≠ .symbol :=
  ⟨rfl, by decide, by decide⟩

theorem C4_annkey_witness :
    tagOf (.abool true) ≠ .described ∧
    accepts .tAnnKey (tagOf (.abool true)) = false ∧
    unmarshalAs .tAnnKey (.abool true) = .error (unmErr .tAnnKey (.abool true)) :=
  ⟨by decide, by decide, C4_annkey.1 (.abool true) (by decide) (by decide)⟩

/-- C5 (corrected): SHORT unmarshals into an int32 target with the same
value and INT into an int16 target errors, as the claim's examples state;
but the full rule is not "lossless widening of matching signedness": the
int32 target also accepts the unsigned CHAR (reinterpreting its 32 bits, so
large CHAR values come out negative), and the uint64 target rejects UINT
even though that widening is lossless and signedness-matching (its switch
lists CHAR, UBYTE, USHORT, ULONG only). -/
theorem C5_int_widening :
    (∀ (a : AVal), tagOf a ≠ .described → accepts .tInt16 (tagOf a) = false →
      unmarshalAs .tInt16 a = .error (unmErr .tInt16 a)) ∧
    (∀ (a : AVal), tagOf a ≠ .described → accepts .tInt32 (tagOf a) = false →
      unmarshalAs .tInt32 a = .error (unmErr .tInt32 a)) ∧
    (∀ (a : AVal), tagOf a ≠ .described → accepts .tUInt64 (tagOf a) = false →
      unmarshalAs .tUInt64 a = .error (unmErr .tUInt64 a)) ∧
    (∀ i, unmarshalAs .tInt32 (.ashort i) = .ok (.vInt32 i)) ∧
    (∀ i, unmarshalAs .tInt16 (.aint i) = .error (unmErr .tInt16 (.aint i))) ∧
    (∀ i, unmarshalAs .tInt16 (.abyte i) = .ok (.vInt16 i)) ∧
    (∀ n, unmarshalAs .tInt32 (.achar n) = .ok (.vInt32 (tcInt 4 n))) ∧
    (∀ n, unmarshalAs .tUInt64 (.auint n) = .error (unmErr .tUInt64 (.auint n))) :=
  ⟨fun a hd hacc => unm_mismatch_scalar .tInt16 a rfl hd hacc,
    fun a hd hacc => unm_mismatch_scalar .tInt32 a rfl hd hacc,
    fun a hd hacc => unm_mismatch_scalar .tUInt64 a rfl hd hacc,
    fun _ => rfl, fun _ => rfl, fun _ => rfl, fun _ => rfl, fun _ => rfl⟩

theorem C5_int_widening_cex :
    unmarshalAs .tInt32 (.achar 4294967295) = .ok (.vInt32 (-1)) ∧
    unmarshalAs .tUInt64 (.auint 7) = .error (unmErr .tUInt64 (.auint 7)) :=
  ⟨rfl, rfl⟩

theorem C5_int_widening_witness :
    tagOf (.aint 3) ≠ .described ∧
    accepts .tInt16 (tagOf (.aint 3)) = false ∧
    unmarshalAs .tInt16 (.aint 3) = .error (unmErr .tInt16 (.aint 3)) :=
  ⟨by decide, by decide, C5_int_widening.1 (.aint 3) (by decide) (by decide)⟩

/-- C8 (corrected): a scalar pointer target rejecting a (non-DESCRIBED) tag,
and a slice target on any tag other than LIST/ARRAY, raise exactly
`newUnmarshalError`, whose fields name the AMQP tag and the Go target type;
but a reflected map target does NOT error on a mismatched tag: `getMap`'s
silent `default:` leaves the freshly cleared map empty, substituting a
default value (see the counterexample). -/
theorem C8_mismatch_error :
    (∀ (t : GoType) (a : AVal), scalarTgt t = true → tagOf a ≠ .described →
      accepts t (tagOf a) = false → unmarshalAs t a = .error (unmErr t a)) ∧
    (∀ (te : GoType) (a : AVal), tagOf a ≠ .described → tagOf a ≠ .list →
      tagOf a ≠ .array → unmarshalAs (.tSlice te) a = .error (unmErr (.tSlice te) a)) ∧
    (∀ (t : GoType) (a : AVal), (unmErr t a).amqpType = pnTypeName (tagOf a) ∧
      (unmErr t a).goType = goTypeName t) :=
  ⟨unm_mismatch_scalar, unm_mismatch_slice, fun _ _ => ⟨rfl, rfl⟩⟩

theorem C8_mismatch_cex :
    unmarshalAs .tMap (.astring [97]) = .ok (.vMap []) ∧
    ∀ e : UErr, unmarshalAs .tMap (.astring [97]) ≠ .error e :=
  ⟨rfl, fun _ h => Except.noConfusion h⟩

theorem C8_mismatch_witness :
    scalarTgt .tBool = true ∧ tagOf (.aint 3) ≠ .described ∧
    accepts .tBool (tagOf (.aint 3)) = false ∧
    unmarshalAs .tBool (.aint 3) = .error (unmErr .tBool (.aint 3)) :=
  ⟨rfl, by decide, by decide, C8_mismatch_error.1 .tBool (.aint 3) rfl (by decide) (by decide)⟩


/-- C2: host round trip.  For every canonical host value (well-formed per
`wfg`, with a wire-encodable image per `wfa`), `Unmarshal` applied to the
bytes `Marshal` produces, at the pointer target of the value's own Go type,
consumes the whole encoding and returns the value itself. -/
theorem C2_host_roundtrip (v : GoValue) (hg : wfg v = true)
    (ha : wfa (goMarshal v) = true) :
    Unmarshal (encodeA (goMarshal v)) (.ptr (gtypeOf v)) =
      .ok (encodeA (goMarshal v)).length v := by
  unfold Unmarshal
  rw [goDecode_complete (goMarshal v) ha]
  show (match unmarshalAs (gtypeOf v) (goMarshal v) with
    | .ok w => URes.ok (encodeA (goMarshal v)).length w
    | .error e => URes.err e) = URes.ok (encodeA (goMarshal v)).length v
  rw [unm_typed v hg]

theorem C2_host_roundtrip_witness :
    wfg (GoValue.vList [.vInt16 3, .vSymbol [97]]) = true ∧
    wfa (goMarshal (GoValue.vList [.vInt16 3, .vSymbol [97]])) = true ∧
    Unmarshal (encodeA (goMarshal (GoValue.vList [.vInt16 3, .vSymbol [97]])))
        (.ptr (gtypeOf (GoValue.vList [.vInt16 3, .vSymbol [97]]))) =
      .ok (encodeA (goMarshal (GoValue.vList [.vInt16 3, .vSymbol [97]]))).length
        (GoValue.vList [.vInt16 3, .vSymbol [97]]) :=
  ⟨rfl, rfl, C2_host_roundtrip (GoValue.vList [.vInt16 3, .vSymbol [97]]) rfl rfl⟩

/-- C9: `Marshal` buffer mechanics.  With a nil or zero-length caller buffer
the first attempt is a fresh `minEncode` = 256 byte buffer; on every
overflow the buffer is replaced by one of exactly twice the previous length,
so the attempted lengths are 256·2^i up to the first that fits the encoded
size; a caller buffer already large enough is used as-is; the returned
buffer's length is the encoded byte count. -/
theorem C9_marshal_growth (v : GoValue) (bufLen : Nat)
    (hcap : (encodeA (goMarshal v)).length ≤ minEncode * 2 ^ 63) :
    (marshalSizes 0 (encodeA (goMarshal v)).length).head? = some minEncode ∧
    (∃ k, k ≤ 63 ∧
      marshalSizes 0 (encodeA (goMarshal v)).length =
        (List.range (k + 1)).map (fun i => minEncode * 2 ^ i) ∧
      (∀ i, i < k → minEncode * 2 ^ i < (encodeA (goMarshal v)).length) ∧
      (encodeA (goMarshal v)).length ≤ minEncode * 2 ^ k) ∧
    ((encodeA (goMarshal v)).length ≤ bufLen →
      marshalSizes bufLen (encodeA (goMarshal v)).length = [bufLen]) ∧
    marshalRetLen v = (encodeA (goMarshal v)).length := by
  refine ⟨?_, ?_, ?_, rfl⟩
  · show (growSizes (63 + 1) minEncode (encodeA (goMarshal v)).length).head? =
      some minEncode
    exact growSizes_head 63 minEncode _
  · show ∃ k, k ≤ 63 ∧
      growSizes (63 + 1) minEncode (encodeA (goMarshal v)).length =
        (List.range (k + 1)).map (fun i => minEncode * 2 ^ i) ∧
      (∀ i, i < k → minEncode * 2 ^ i < (encodeA (goMarshal v)).length) ∧
      (encodeA (goMarshal v)).length ≤ minEncode * 2 ^ k
    exact growSizes_form 63 minEncode _ (by norm_num [minEncode]) hcap
  · intro hfit
    have hpos := encodeA_length_pos (goMarshal v)
    have h0 : bufLen ≠ 0 := by omega
    show growSizes (63 + 1) (if bufLen = 0 then minEncode else bufLen)
      (encodeA (goMarshal v)).length = [bufLen]
    rw [if_neg h0, growSizes, if_pos hfit]

theorem C9_marshal_growth_witness :
    (encodeA (goMarshal (GoValue.vBool true))).length ≤ minEncode * 2 ^ 63 ∧
    ((marshalSizes 0 (encodeA (goMarshal (GoValue.vBool true))).length).head? =
      some minEncode ∧
    (∃ k, k ≤ 63 ∧
      marshalSizes 0 (encodeA (goMarshal (GoValue.vBool true))).length =
        (List.range (k + 1)).map (fun i => minEncode * 2 ^ i) ∧
      (∀ i, i < k →
        minEncode * 2 ^ i < (encodeA (goMarshal (GoValue.vBool true))).length) ∧
      (encodeA (goMarshal (GoValue.vBool true))).length ≤ minEncode * 2 ^ k) ∧
    ((encodeA (goMarshal (GoValue.vBool true))).length ≤ 4 →
      marshalSizes 4 (encodeA (goMarshal (GoValue.vBool true))).length = [4]) ∧
    marshalRetLen (GoValue.vBool true) =
      (encodeA (goMarshal (GoValue.vBool true))).length) :=
  ⟨by decide, C9_marshal_growth (GoValue.vBool true) 4 (by decide)⟩


/-- C7 (corrected): `message::encode` first runs the put-phase transition on
the three map sections and grows the buffer by doubling on every overflow;
but the initial size is `max(s.capacity(), 512)`, not unconditionally 512: a
caller string with capacity above 512 starts at its capacity (see the
counterexample).  With a fresh (small-capacity) buffer the start is 512, and
for any encoded size in (8192, 16384] — such as a message with a
10000-byte BINARY body — the attempted sizes are exactly 512, 1024, 2048,
4096, 8192, 16384. -/
theorem C7_encode_growth :
    (∀ st : MsgState, msgStep st .encodeOp =
      ⟨put_map st.props, put_map st.anns, put_map st.instrs⟩) ∧
    (∀ cap E, (msgEncodeSizes cap E).head? = some (if cap < 512 then 512 else cap)) ∧
    (∀ E, 8192 < E → E ≤ 16384 →
      msgEncodeSizes 0 E = [512, 1024, 2048, 4096, 8192, 16384]) := by
  refine ⟨fun st => rfl, fun cap E => ?_, fun E h1 h2 => ?_⟩
  · show (growSizes (63 + 1) (if cap < 512 then 512 else cap) E).head? = _
    exact growSizes_head 63 _ E
  · show growSizes (63 + 1) 512 E = _
    rw [growSizes, if_neg (by omega)]
    rw [show (2 * 512 : Nat) = 1024 from rfl, show (63 : Nat) = 62 + 1 from rfl,
      growSizes, if_neg (by omega)]
    rw [show (2 * 1024 : Nat) = 2048 from rfl, show (62 : Nat) = 61 + 1 from rfl,
      growSizes, if_neg (by omega)]
    rw [show (2 * 2048 : Nat) = 4096 from rfl, show (61 : Nat) = 60 + 1 from rfl,
      growSizes, if_neg (by omega)]
    rw [show (2 * 4096 : Nat) = 8192 from rfl, show (60 : Nat) = 59 + 1 from rfl,
      growSizes, if_neg (by omega)]
    rw [show (2 * 8192 : Nat) = 16384 from rfl, show (59 : Nat) = 58 + 1 from rfl,
      growSizes, if_pos h2]

theorem C7_encode_growth_cex :
    (encodeA (.adescribed (.aulong 117) (.abinary (List.replicate 10000 0)))).length
      = 10008 ∧
    (msgEncodeSizes 1000 10008).head? = some 1000 ∧
    (1000 : Nat) ≠ 512 := by
  refine ⟨?_, by decide, by decide⟩
  have hb : (encodeA (AVal.abinary (List.replicate 10000 0))).length = 10005 := by
    have hlen : (List.replicate (10000 : Nat) (0 : Nat)).length = 10000 :=
      List.length_replicate 10000 0
    generalize hg : List.replicate (10000 : Nat) (0 : Nat) = bs at hlen ⊢
    simp only [encodeA, hlen]
    rw [if_neg (by norm_num)]
    simp [beBytes_length, hlen]
  rw [show encodeA (AVal.adescribed (.aulong 117) (.abinary (List.replicate 10000 0))) =
    0x00 :: (encodeA (.aulong 117) ++ encodeA (.abinary (List.replicate 10000 0)))
    from rfl]
  simp only [List.length_cons, List.length_append, hb]
  norm_num [encodeA]

theorem C7_encode_growth_witness :
    (8192 < 10008) ∧ (10008 ≤ 16384) ∧
    msgEncodeSizes 0 10008 = [512, 1024, 2048, 4096, 8192, 16384] :=
  ⟨by decide, by decide, C7_encode_growth.2.2 10008 (by decide) (by decide)⟩

end AMQP
